import Mathlib

/-!
# reStructuredText heading scanner (`ctags/parsers/rest.c`)

A shallow embedding of the reST tag parser: the level table `kindchars` and its
classifier `get_kind`, the UTF-8 length measurement `utf8_strlen`, the uniformity
test `issame`, the scope stack handling of `getNestingLevel` / `makeRestTag`, and
the line loop of `findRestTags`.

Conventions of the embedding.
* A byte is a `Nat` (0..255); a C string is the `List Nat` of its bytes before the
  terminating NUL, so a well-formed string holds no `0`. Reading one position past
  the last byte yields the terminator `0` (`List.headD _ 0`, `List.getD _ _ 0`).
* The static array `kindchars[SECTION_COUNT]` is a `List Nat` of `SECTION_COUNT` slots.
* The static `nestingLevels` is the list of the cork indices on the stack, the
  current (top) level first.
* Functions that update the statics return the new value next to their result.
* The `int` lengths and the `unsigned long` line number are unbounded (`Int`, `Nat`):
  the reader numbers lines from 1, so the decrement of rest.c:81 does not wrap.
-/

namespace Rest

/-! ## Data definitions -/

/-- The enumerator `SECTION_COUNT` of `restKind`: K_CHAPTER = 0, K_SECTION = 1,
K_SUBSECTION = 2, K_SUBSUBSECTION = 3, SECTION_COUNT = 4. -/
def SECTION_COUNT : Nat := 4

/-- Modelled from the spec: `CORK_NIL` of `entry.h` (not under src/), the handle
that stands for "no record". -/
def CORK_NIL : Nat := 0

/-- Modelled from the spec: `tagEntryInfo` of `entry.h` (not under src/), reduced to
the HeadingRecord of the sink interface `emit(title, level, line_number, parent)`:
`kind` is the index `e->kind - RestKinds`, `scopeIndex` the parent reference
(`CORK_NIL` for none). -/
structure tagEntryInfo where
  name : List Nat
  kind : Int
  lineNumber : Nat
  scopeIndex : Nat
deriving DecidableEq

/-- The state of one scan: the statics `kindchars` and `nestingLevels`, the records
queued in the tag sink so far, the local `name` of `findRestTags`, and the number of
the input line read last. -/
structure RestState where
  kindchars : List Nat
  nestingLevels : List Nat
  corkQueue : List tagEntryInfo
  name : List Nat
  lineNumber : Nat
deriving DecidableEq

/-! ## External collaborators -/

/-- Modelled from the spec: `ispunct` of `<ctype.h>` (not under src/) as the
locale-independent ASCII punctuation set. -/
def ispunct (c : Nat) : Bool :=
  (decide (33 ≤ c) && decide (c ≤ 47)) || (decide (58 ≤ c) && decide (c ≤ 64)) ||
  (decide (91 ≤ c) && decide (c ≤ 96)) || (decide (123 ≤ c) && decide (c ≤ 126))

/-- Modelled from the spec: `isspace` of `<ctype.h>` (not under src/) in the "C"
locale: space, and the controls `\t \n \v \f \r`. -/
def isspace (c : Nat) : Bool :=
  decide (c = 32) || (decide (9 ≤ c) && decide (c ≤ 13))

/-- Modelled from the spec: `getEntryInCorkQueue` of `entry.c` (not under src/): the
record that the sink returned handle `n` for, if it exists. Handle `k + 1` names the
`k`-th record emitted; `CORK_NIL` names none. -/
def getEntryInCorkQueue (queue : List tagEntryInfo) (n : Nat) : Option tagEntryInfo :=
  if n = CORK_NIL then none else queue.get? (n - 1)

/-- Modelled from the spec: `getEntryOfNestingLevel` of `nestlevel.c` (not under
src/): `NULL` for a `NULL` level, else the record of its cork index. -/
def getEntryOfNestingLevel (queue : List tagEntryInfo) (nl : Option Nat) :
    Option tagEntryInfo :=
  match nl with
  | none => none
  | some corkIndex => getEntryInCorkQueue queue corkIndex

/-- Modelled from the spec: `initTagEntry` of `entry.c` (not under src/): a record
with the given name and kind, at the current input line, with no parent. -/
def initTagEntry (name : List Nat) (kind : Int) (inputLineNumber : Nat) : tagEntryInfo :=
  { name := name, kind := kind, lineNumber := inputLineNumber, scopeIndex := CORK_NIL }

/-- Modelled from the spec: `makeTagEntry` of `entry.c` (not under src/), the tag
sink `emit`: the record is queued and its handle returned. -/
def makeTagEntry (queue : List tagEntryInfo) (e : tagEntryInfo) :
    Nat × List tagEntryInfo :=
  (queue.length + 1, queue ++ [e])

/-! ## Functions of `rest.c` -/

/-- The loop of `getNestingLevel` (rest.c:57-65) on the stack, top first: the top is
popped while it has no record or its record's kind is `>= kind`. Returns the final
`nl` (`none` for `NULL`) and the stack left. -/
def getNestingLevel (queue : List tagEntryInfo) (kind : Int) :
    List Nat → Option Nat × List Nat
  | [] => (none, [])
  | nl :: rest =>
    match getEntryInCorkQueue queue nl with
    | none => getNestingLevel queue kind rest
    | some e =>
      if e.kind ≥ kind then getNestingLevel queue kind rest
      else (some nl, nl :: rest)

/-- The function `makeRestTag` (rest.c:69-86). `st.lineNumber` is the number of the
input line being processed. The local `parent` is computed and not used. -/
def makeRestTag (st : RestState) (name : List Nat) (kind : Int) : RestState :=
  let popped := getNestingLevel st.corkQueue kind st.nestingLevels
  if name.length > 0 then
    let _parent := getEntryOfNestingLevel st.corkQueue popped.1
    let e := initTagEntry name kind st.lineNumber
    let e := { e with lineNumber := e.lineNumber - 1 }
    let r := makeTagEntry st.corkQueue e
    { st with corkQueue := r.2, nestingLevels := r.1 :: popped.2 }
  else
    { st with nestingLevels := CORK_NIL :: popped.2 }

/-- The loop of `issame` (rest.c:94-102): `str` is the rest of the string from the
cursor on. -/
def issame_loop (first : Nat) : List Nat → Bool
  | [] => true
  | s :: rest =>
    if s = 0 then true
    else
      let c := rest.headD 0
      if c ≠ 0 ∧ c ≠ first then false else issame_loop first rest

/-- The function `issame` (rest.c:90-104). -/
def issame (str : List Nat) : Bool :=
  issame_loop (str.headD 0) str

/-- The loop of `get_kind` (rest.c:111-121) from index `i` on, over the slots
`kindchars[i..]`. Returns the result and the new contents of those slots. -/
def get_kind_loop (c : Nat) : Nat → List Nat → Int × List Nat
  | _, [] => (-1, [])
  | i, k :: ks =>
    if k = c then ((i : Int), k :: ks)
    else if k = 0 then ((i : Int), c :: ks)
    else ((get_kind_loop c (i + 1) ks).1, k :: (get_kind_loop c (i + 1) ks).2)

/-- The function `get_kind` (rest.c:107-123): the result and the new `kindchars`. -/
def get_kind (kindchars : List Nat) (c : Nat) : Int × List Nat :=
  get_kind_loop c 0 kindchars

/-- The loop of `utf8_strlen` (rest.c:133-149): `pos` is the offset of the cursor
`buf`, `end_` the offset of `end`. The first argument bounds the number of
iterations; `utf8_strlen` passes more than the loop can use. -/
def utf8_strlen_loop (buf : List Nat) (end_ : Nat) : Nat → Nat → Int → Int
  | 0, _, _ => -1
  | fuel + 1, pos, len =>
    if pos < end_ then
      let b := buf.getD pos 0
      let next : Option Nat :=
        if b &&& 0x80 = 0 then some (pos + 1)
        else if b &&& 0xe0 = 0xc0 then some (pos + 2)
        else if b &&& 0xf0 = 0xe0 then some (pos + 3)
        else if b &&& 0xf8 = 0xf0 then some (pos + 4)
        else none
      match next with
      | none => -1
      | some p => if p > end_ then -1 else utf8_strlen_loop buf end_ fuel p (len + 1)
    else len

/-- The function `utf8_strlen` (rest.c:128-152). -/
def utf8_strlen (buf : List Nat) (buf_len : Nat) : Int :=
  utf8_strlen_loop buf buf_len (buf_len + 1) 0 0

/-- The local `name_len` of `findRestTags` (rest.c:167-172): the UTF-8 length of the
candidate, or its byte length when it does not look like UTF-8. -/
def name_len (name : List Nat) : Int :=
  let name_len_bytes := name.length
  let n := utf8_strlen name name_len_bytes
  if n < 0 then (name_len_bytes : Int) else n

/-- The tail of the loop body of `findRestTags` (rest.c:187-189). -/
def setCandidate (st : RestState) (line : List Nat) : RestState :=
  { st with name := if isspace (line.headD 0) then [] else line }

/-- The test of rest.c:175-176. -/
def looksLikeUnderline (name line : List Nat) : Bool :=
  decide ((line.length : Int) ≥ name_len name) && decide (name_len name > 0) &&
    ispunct (line.headD 0) && issame line

/-- One iteration of the loop of `findRestTags` (rest.c:164-190) on the line read. -/
def processLine (st : RestState) (line : List Nat) : RestState :=
  let st := { st with lineNumber := st.lineNumber + 1 }
  if looksLikeUnderline st.name line then
    let c := line.headD 0
    let r := get_kind st.kindchars c
    let st := { st with kindchars := r.2 }
    if r.1 ≥ 0 then makeRestTag st st.name r.1
    else setCandidate st line
  else setCandidate st line

/-- The state set up by rest.c:158-162 whatever the statics held before: an empty
`name`, a zeroed `kindchars`, a fresh `nestingLevels`; the sink is empty and no line
has been read. -/
def startScan (_stale : RestState) : RestState :=
  { kindchars := List.replicate SECTION_COUNT 0
    nestingLevels := []
    corkQueue := []
    name := []
    lineNumber := 0 }

/-- The function `findRestTags` (rest.c:156-193) on the lines of the input file. -/
def findRestTags (stale : RestState) (doc : List (List Nat)) : RestState :=
  doc.foldl processLine (startScan stale)

/-- The bytes of an ASCII string literal. -/
def bytes (s : String) : List Nat := s.toList.map Char.toNat

/-! ## Reference notions used to state the properties -/

/-- Consecutive calls of `get_kind` on the bytes of `cs`, the first on the table
`kindchars`, each later one on the table the call before it left: the values
returned, in order. -/
def get_kind_seq : List Nat → List Nat → List Int
  | _, [] => []
  | kindchars, c :: cs =>
    (get_kind kindchars c).1 :: get_kind_seq (get_kind kindchars c).2 cs

/-- Record `c` at the end of the list `seen` of distinct bytes unless it is there. -/
def noteSeen (seen : List Nat) (c : Nat) : List Nat :=
  if c ∈ seen then seen else seen ++ [c]

/-- The distinct bytes of a sequence, in order of first appearance. -/
def firstSeen (cs : List Nat) : List Nat :=
  cs.foldl noteSeen []

/-- The level that belongs to a position in the list of distinct bytes: the
position itself below `SECTION_COUNT`, and `-1` from there on. -/
def levelOfPosition (p : Nat) : Int :=
  if p < SECTION_COUNT then (p : Int) else -1

/-- The table `kindchars` that holds the first `SECTION_COUNT` bytes of `seen`, the
remaining slots zero. -/
def tableOf (seen : List Nat) : List Nat :=
  seen.take SECTION_COUNT ++ List.replicate (SECTION_COUNT - (seen.take SECTION_COUNT).length) 0

/-- The line read in state `st` takes the branch of rest.c:181-185: it passes the
test of rest.c:175-176 and `get_kind` returns a kind for its first byte. -/
def confirms (st : RestState) (line : List Nat) : Bool :=
  looksLikeUnderline st.name line && decide (0 ≤ (get_kind st.kindchars (line.headD 0)).1)

/-- The record that `makeRestTag` builds for the candidate of `st` when the line
read in state `st` confirms it with kind `kind` (rest.c:79-81). -/
def headingRecord (st : RestState) (kind : Int) : tagEntryInfo :=
  { name := st.name, kind := kind, lineNumber := st.lineNumber + 1 - 1,
    scopeIndex := CORK_NIL }

/-- The invariant of the scope stack (top first) against the records of the sink:
every entry is the handle of a record; towards the bottom the handles and the kinds
strictly decrease; and a record that is not on the stack was followed by a record of
the same or a smaller kind. -/
structure StackInv (queue : List tagEntryInfo) (stack : List Nat) : Prop where
  valid : ∀ h ∈ stack, ∃ e, getEntryInCorkQueue queue h = some e
  sorted : stack.Pairwise (fun a b => b < a ∧
    ∀ ea eb, getEntryInCorkQueue queue a = some ea →
      getEntryInCorkQueue queue b = some eb → eb.kind < ea.kind)
  complete : ∀ h e, getEntryInCorkQueue queue h = some e →
    h ∈ stack ∨ ∃ j e', h < j ∧ getEntryInCorkQueue queue j = some e' ∧ e'.kind ≤ e.kind

/-- The well-formed UTF-8 encoding of one code point (RFC 3629, Unicode table 3-6):
one byte `0xxxxxxx` below U+0080, two bytes `110xxxxx 10xxxxxx` below U+0800, three
bytes `1110xxxx 10xxxxxx 10xxxxxx` below U+10000, else four bytes
`11110xxx 10xxxxxx 10xxxxxx 10xxxxxx`. -/
def utf8_encode_cp (cp : Nat) : List Nat :=
  if cp < 0x80 then [cp]
  else if cp < 0x800 then [0xC0 + cp / 64, 0x80 + cp % 64]
  else if cp < 0x10000 then [0xE0 + cp / 4096, 0x80 + cp / 64 % 64, 0x80 + cp % 64]
  else [0xF0 + cp / 262144, 0x80 + cp / 4096 % 64, 0x80 + cp / 64 % 64, 0x80 + cp % 64]

/-- The UTF-8 encoding of a list of code points. -/
def utf8_encode : List Nat → List Nat
  | [] => []
  | cp :: cps => utf8_encode_cp cp ++ utf8_encode cps

/-- The levels of the entries of the scope stack from bottom to top: for each entry
the kind of its record in the sink, `none` when it has no record. -/
def stackLevels (st : RestState) : List (Option Int) :=
  st.nestingLevels.reverse.map
    (fun h => (getEntryInCorkQueue st.corkQueue h).map tagEntryInfo.kind)

/-- The table that consecutive calls of `get_kind` on the bytes of `cs` leave, the
first call made on the table `kindchars`. -/
def kindcharsAfter : List Nat → List Nat → List Nat
  | kindchars, [] => kindchars
  | kindchars, c :: cs => kindcharsAfter (get_kind kindchars c).2 cs

/-- The run length that the leading-bit pattern of a byte selects: 1 for `0xxxxxxx`,
2 for `110xxxxx`, 3 for `1110xxxx`, 4 for `11110xxx`, and none for the other bytes. -/
def runLength (b : Nat) : Option Nat :=
  if b / 128 = 0 then some 1
  else if b / 32 = 6 then some 2
  else if b / 16 = 14 then some 3
  else if b / 8 = 30 then some 4
  else none

/-- A run: a block of bytes whose length is the run length that its first byte
selects. -/
def isRun (r : List Nat) : Bool :=
  match r with
  | [] => false
  | b :: _ => decide (runLength b = some r.length)

/-- What is left of a buffer where the walk fails: it starts with a byte that has
none of the four leading-bit patterns, or with a run that extends past the end. -/
def cutShort (rest : List Nat) : Bool :=
  match rest with
  | [] => false
  | b :: _ =>
    match runLength b with
    | none => true
    | some k => decide (rest.length < k)

/-- A Unicode scalar value: a code point up to U+10FFFF that is not a surrogate. -/
def isScalarValue (cp : Nat) : Prop :=
  cp < 0x110000 ∧ ¬ (0xD800 ≤ cp ∧ cp < 0xE000)

/-- A byte string is well-formed UTF-8 when it is the encoding of a sequence of
Unicode scalar values. -/
def WellFormedUtf8 (buf : List Nat) : Prop :=
  ∃ cps : List Nat, (∀ cp ∈ cps, isScalarValue cp) ∧ utf8_encode cps = buf

/-- The number of assigned entries of the level table: the slots that hold a byte. -/
def assignedCount (kindchars : List Nat) : Nat :=
  (kindchars.filter (fun c => decide (c ≠ 0))).length

/-- Every record of the sink comes after a record of each level below its own. -/
def levelsInOrder (queue : List tagEntryInfo) : Prop :=
  ∀ (i : Nat) (e : tagEntryInfo), queue.get? i = some e →
    ∀ j : Int, 0 ≤ j → j < e.kind →
      ∃ (i' : Nat) (e' : tagEntryInfo), i' < i ∧ queue.get? i' = some e' ∧ e'.kind = j

/-- The invariant that ties the level table to the records of the sink: the table
holds the assigned bytes `d` followed by free slots, the levels of the records are
the positions in `d`, and they appeared in order. -/
def LevelsInv (kindchars : List Nat) (queue : List tagEntryInfo) : Prop :=
  ∃ d : List Nat, kindchars = d ++ List.replicate (SECTION_COUNT - d.length) 0
    ∧ d.length ≤ SECTION_COUNT ∧ (∀ x ∈ d, x ≠ 0)
    ∧ (∀ k : Int, (∃ e ∈ queue, e.kind = k) ↔ (0 ≤ k ∧ k < (d.length : Int)))
    ∧ levelsInOrder queue

/-- The text `t` is that of a line of `doc` which did not confirm a heading when
`findRestTags` read it, and which does not start with white space. -/
def titleSource (stale : RestState) (doc : List (List Nat)) (t : List Nat) : Prop :=
  ∃ k, doc.get? k = some t ∧ confirms (findRestTags stale (doc.take k)) t = false
    ∧ isspace (t.headD 0) = false

/-- On the table that holds the bytes `d` followed by `n` free slots, a byte of `d`
gets its position in `d` and the table is left as it is. -/
theorem get_kind_loop_mem (c : Nat) (n : Nat) :
    ∀ (d : List Nat) (i : Nat), c ∈ d → (∀ x ∈ d, x ≠ 0) →
      get_kind_loop c i (d ++ List.replicate n 0)
        = (((i + d.indexOf c : Nat) : Int), d ++ List.replicate n 0) := by
  intro d
  induction d with
  | nil => intro i h; simp at h
  | cons k ks ih =>
    intro i hmem hnz
    by_cases hk : k = c
    · subst hk
      simp [get_kind_loop]
    · have hk0 : k ≠ 0 := hnz k (by simp)
      have hmem2 : c ∈ ks := by
        rcases List.mem_cons.mp hmem with h | h
        · exact absurd h.symm hk
        · exact h
      have := ih (i + 1) hmem2 (fun x hx => hnz x (List.mem_cons_of_mem _ hx))
      rw [List.cons_append, get_kind_loop, if_neg hk, if_neg hk0, this,
        List.indexOf_cons_ne _ hk]
      congr 2
      omega

/-- On such a table with a free slot, a new byte gets the first free slot. -/
theorem get_kind_loop_fresh (c : Nat) (n : Nat) :
    ∀ (d : List Nat) (i : Nat), c ∉ d → (∀ x ∈ d, x ≠ 0) → c ≠ 0 →
      get_kind_loop c i (d ++ List.replicate (n + 1) 0)
        = (((i + d.length : Nat) : Int), d ++ c :: List.replicate n 0) := by
  intro d
  induction d with
  | nil =>
    intro i _ _ hc
    simp [get_kind_loop, List.replicate_succ, Ne.symm hc]
  | cons k ks ih =>
    intro i hmem hnz hc
    have hk : k ≠ c := fun h => hmem (by simp [h])
    have hk0 : k ≠ 0 := hnz k (by simp)
    have hmem2 : c ∉ ks := fun h => hmem (List.mem_cons_of_mem _ h)
    have := ih (i + 1) hmem2 (fun x hx => hnz x (List.mem_cons_of_mem _ hx)) hc
    rw [List.cons_append, get_kind_loop, if_neg hk, if_neg hk0, this, List.length_cons]
    congr 2
    omega

/-- On a table without a free slot, a byte that is not stored gets -1. -/
theorem get_kind_loop_full (c : Nat) :
    ∀ (d : List Nat) (i : Nat), c ∉ d → (∀ x ∈ d, x ≠ 0) →
      get_kind_loop c i d = (-1, d) := by
  intro d
  induction d with
  | nil => intro i _ _; simp [get_kind_loop]
  | cons k ks ih =>
    intro i hmem hnz
    have hk : k ≠ c := fun h => hmem (by simp [h])
    have hk0 : k ≠ 0 := hnz k (by simp)
    have hmem2 : c ∉ ks := fun h => hmem (List.mem_cons_of_mem _ h)
    have := ih (i + 1) hmem2 (fun x hx => hnz x (List.mem_cons_of_mem _ hx))
    simp only [get_kind_loop, hk, hk0, if_false, this]

theorem indexOf_noteSeen_of_not_take (seen : List Nat) (c : Nat)
    (h : c ∉ seen.take SECTION_COUNT) (hlen : SECTION_COUNT ≤ seen.length) :
    SECTION_COUNT ≤ (noteSeen seen c).indexOf c
      ∧ (noteSeen seen c).take SECTION_COUNT = seen.take SECTION_COUNT := by
  have htl : (seen.take SECTION_COUNT).length = SECTION_COUNT := by
    simp [List.length_take, hlen]
  unfold noteSeen
  by_cases hm : c ∈ seen
  · rw [if_pos hm]
    refine ⟨?_, rfl⟩
    conv_rhs => rw [← List.take_append_drop SECTION_COUNT seen]
    rw [List.indexOf_append_of_not_mem h, htl]
    omega
  · rw [if_neg hm]
    refine ⟨?_, List.take_append_of_le_length hlen⟩
    rw [List.indexOf_append_of_not_mem hm]
    omega

/-- One call of `get_kind` on the table of the bytes seen so far. -/
theorem get_kind_tableOf (seen : List Nat) (c : Nat) (hseen : ∀ x ∈ seen, x ≠ 0)
    (hc : c ≠ 0) :
    get_kind (tableOf seen) c
      = (levelOfPosition ((noteSeen seen c).indexOf c), tableOf (noteSeen seen c)) := by
  have hnz : ∀ x ∈ seen.take SECTION_COUNT, x ≠ 0 :=
    fun x hx => hseen x (List.mem_of_mem_take hx)
  unfold get_kind tableOf
  by_cases hin : c ∈ seen.take SECTION_COUNT
  · have hm : c ∈ seen := List.mem_of_mem_take hin
    have hn : noteSeen seen c = seen := by simp [noteSeen, hm]
    rw [get_kind_loop_mem c _ _ 0 hin hnz, hn]
    have hidx : seen.indexOf c = (seen.take SECTION_COUNT).indexOf c := by
      conv_lhs => rw [← List.take_append_drop SECTION_COUNT seen]
      exact List.indexOf_append_of_mem hin
    have hlt : (seen.take SECTION_COUNT).indexOf c < SECTION_COUNT := by
      have h1 := List.indexOf_lt_length.mpr hin
      have h2 : (seen.take SECTION_COUNT).length ≤ SECTION_COUNT := by
        simp [List.length_take]
      omega
    rw [hidx, levelOfPosition, if_pos hlt]
    simp
  · by_cases hlen : SECTION_COUNT ≤ seen.length
    · obtain ⟨hge, htake⟩ := indexOf_noteSeen_of_not_take seen c hin hlen
      have htl : (seen.take SECTION_COUNT).length = SECTION_COUNT := by
        simp [List.length_take, hlen]
      rw [htake, htl, Nat.sub_self, List.replicate_zero, List.append_nil,
        get_kind_loop_full c _ 0 hin hnz, levelOfPosition, if_neg (by omega)]
    · have hlt : seen.length < SECTION_COUNT := by omega
      have htake : seen.take SECTION_COUNT = seen := List.take_of_length_le (by omega)
      rw [htake] at hin
      have hn : noteSeen seen c = seen ++ [c] := by simp [noteSeen, hin]
      have htake2 : (seen ++ [c]).take SECTION_COUNT = seen ++ [c] :=
        List.take_of_length_le (by simp; omega)
      obtain ⟨m, hm⟩ : ∃ m, SECTION_COUNT - seen.length = m + 1 :=
        ⟨SECTION_COUNT - seen.length - 1, by omega⟩
      rw [htake, hn, htake2, hm, get_kind_loop_fresh c m seen 0 hin hseen hc,
        List.indexOf_append_of_not_mem hin, levelOfPosition]
      have hm2 : SECTION_COUNT - (seen ++ [c]).length = m := by
        simp only [List.length_append, List.length_singleton]; omega
      rw [hm2]
      simp [hlt]

theorem mem_noteSeen_self (seen : List Nat) (c : Nat) : c ∈ noteSeen seen c := by
  unfold noteSeen
  split
  · assumption
  · simp

theorem noteSeen_ne_zero (seen : List Nat) (c : Nat) (hseen : ∀ x ∈ seen, x ≠ 0)
    (hc : c ≠ 0) : ∀ x ∈ noteSeen seen c, x ≠ 0 := by
  unfold noteSeen
  split
  · exact hseen
  · intro x hx
    rcases List.mem_append.mp hx with h | h
    · exact hseen x h
    · rw [List.mem_singleton.mp h]; exact hc

theorem foldl_noteSeen_extends (cs : List Nat) :
    ∀ seen : List Nat, ∃ s, cs.foldl noteSeen seen = seen ++ s := by
  induction cs with
  | nil => intro seen; exact ⟨[], by simp⟩
  | cons c cs ih =>
    intro seen
    obtain ⟨s, hs⟩ := ih (noteSeen seen c)
    rw [List.foldl_cons, hs]
    unfold noteSeen
    split
    · exact ⟨s, rfl⟩
    · exact ⟨c :: s, by simp⟩

/-- Consecutive calls on the table of the bytes seen so far. -/
theorem get_kind_seq_tableOf (cs : List Nat) :
    ∀ seen : List Nat, (∀ x ∈ seen, x ≠ 0) → (∀ c ∈ cs, c ≠ 0) →
      get_kind_seq (tableOf seen) cs
        = cs.map (fun c => levelOfPosition ((cs.foldl noteSeen seen).indexOf c)) := by
  induction cs with
  | nil => intro seen _ _; simp [get_kind_seq]
  | cons c cs ih =>
    intro seen hseen hcs
    have hc : c ≠ 0 := hcs c (by simp)
    have hcs2 : ∀ x ∈ cs, x ≠ 0 := fun x hx => hcs x (List.mem_cons_of_mem _ hx)
    obtain ⟨s, hs⟩ := foldl_noteSeen_extends cs (noteSeen seen c)
    rw [get_kind_seq, get_kind_tableOf seen c hseen hc]
    simp only [List.foldl_cons, List.map_cons]
    rw [ih (noteSeen seen c) (noteSeen_ne_zero seen c hseen hc) hcs2]
    congr 1
    rw [hs, List.indexOf_append_of_mem (mem_noteSeen_self seen c)]

theorem indexOf_map_injective (f : Nat → Nat) (hf : Function.Injective f) (c : Nat) :
    ∀ l : List Nat, (l.map f).indexOf (f c) = l.indexOf c := by
  intro l
  induction l with
  | nil => simp
  | cons a l ih =>
    by_cases h : a = c
    · subst h; simp
    · have h2 : f a ≠ f c := fun e => h (hf e)
      rw [List.map_cons, List.indexOf_cons_ne _ h2, List.indexOf_cons_ne _ h, ih]

theorem foldl_noteSeen_map (f : Nat → Nat) (hf : Function.Injective f) (cs : List Nat) :
    ∀ seen : List Nat,
      (cs.map f).foldl noteSeen (seen.map f) = (cs.foldl noteSeen seen).map f := by
  induction cs with
  | nil => intro seen; simp
  | cons c cs ih =>
    intro seen
    have hstep : noteSeen (seen.map f) (f c) = (noteSeen seen c).map f := by
      unfold noteSeen
      by_cases h : c ∈ seen
      · have : f c ∈ seen.map f := List.mem_map_of_mem f h
        rw [if_pos h, if_pos this]
      · have : f c ∉ seen.map f := by
          rw [List.mem_map_of_injective hf]; exact h
        rw [if_neg h, if_neg this]
        simp
    rw [List.map_cons, List.foldl_cons, List.foldl_cons, hstep, ih]

/-- **C1** Order determines level. Starting from the reset table, when the non-zero
bytes `cs` are passed to `get_kind` one after another, the value returned for each
byte is its position in the list of distinct bytes of `cs` in order of first
appearance when that position is below 4, and -1 otherwise; and renaming the bytes
injectively (to non-zero bytes) leaves the returned values unchanged. -/
theorem get_kind_order_determines_level (cs : List Nat) (hcs : ∀ c ∈ cs, c ≠ 0) :
    get_kind_seq (List.replicate SECTION_COUNT 0) cs
        = cs.map (fun c => levelOfPosition ((firstSeen cs).indexOf c))
      ∧ ∀ f : Nat → Nat, Function.Injective f → (∀ c ∈ cs, f c ≠ 0) →
          get_kind_seq (List.replicate SECTION_COUNT 0) (cs.map f)
            = get_kind_seq (List.replicate SECTION_COUNT 0) cs := by
  have ht : List.replicate SECTION_COUNT 0 = tableOf [] := by
    simp [tableOf]
  have main : ∀ ds : List Nat, (∀ c ∈ ds, c ≠ 0) →
      get_kind_seq (List.replicate SECTION_COUNT 0) ds
        = ds.map (fun c => levelOfPosition ((firstSeen ds).indexOf c)) := by
    intro ds hds
    rw [ht]
    exact get_kind_seq_tableOf ds [] (by simp) hds
  refine ⟨main cs hcs, ?_⟩
  intro f hf hfz
  have hmap : ∀ c ∈ cs.map f, c ≠ 0 := by
    intro c hc
    obtain ⟨a, ha, rfl⟩ := List.mem_map.mp hc
    exact hfz a ha
  rw [main cs hcs, main (cs.map f) hmap, List.map_map]
  apply List.map_congr_left
  intro c _
  have h := foldl_noteSeen_map f hf cs []
  simp only [List.map_nil] at h
  simp only [Function.comp, firstSeen, h, indexOf_map_injective f hf c]

/-- Witness of C1 on the underline characters `= - ~ ^ # = + #`. -/
theorem get_kind_order_determines_level_witness :
    get_kind_seq (List.replicate SECTION_COUNT 0) [61, 45, 126, 94, 35, 61, 43, 35]
      = [0, 1, 2, 3, -1, 0, -1, -1] := by
  have h := (get_kind_order_determines_level [61, 45, 126, 94, 35, 61, 43, 35]
    (by decide)).1
  rw [h]
  decide

/-! ## The underline test -/

theorem issame_loop_iff (first : Nat) :
    ∀ str : List Nat, (∀ b ∈ str, b ≠ 0) →
      (issame_loop first str = true ↔ ∀ b ∈ str.tail, b = first) := by
  intro str
  induction str with
  | nil => intro _; simp [issame_loop]
  | cons s rest ih =>
    intro hnz
    have hs : s ≠ 0 := hnz s (by simp)
    have hrest : ∀ b ∈ rest, b ≠ 0 := fun b hb => hnz b (List.mem_cons_of_mem _ hb)
    rw [issame_loop, if_neg hs]
    cases rest with
    | nil => simp [issame_loop]
    | cons c r =>
      have hc : c ≠ 0 := hrest c (by simp)
      have ih2 := ih hrest
      simp only [List.headD_cons, List.tail_cons] at ih2 ⊢
      by_cases hcf : c = first
      · subst hcf
        simp only [ne_eq, not_true_eq_false, and_false, if_false, ih2]
        simp
      · simp [hc, hcf]

theorem issame_iff (str : List Nat) (hnz : ∀ b ∈ str, b ≠ 0) :
    issame str = true ↔ ∀ b ∈ str, b = str.headD 0 := by
  unfold issame
  rw [issame_loop_iff _ str hnz]
  cases str with
  | nil => simp
  | cons a r => simp

theorem get_kind_loop_result (c : Nat) :
    ∀ (ks : List Nat) (i : Nat),
      (get_kind_loop c i ks).1 = -1 ∨ (i : Int) ≤ (get_kind_loop c i ks).1 := by
  intro ks
  induction ks with
  | nil => intro i; left; simp [get_kind_loop]
  | cons k ks ih =>
    intro i
    rw [get_kind_loop]
    split
    · right; simp
    · split
      · right; simp
      · rcases ih (i + 1) with h | h
        · left; exact h
        · right
          simp only
          have : ((i + 1 : Nat) : Int) = (i : Int) + 1 := by push_cast; rfl
          omega

theorem get_kind_result (kindchars : List Nat) (c : Nat) :
    (get_kind kindchars c).1 = -1 ∨ 0 ≤ (get_kind kindchars c).1 := by
  have := get_kind_loop_result c kindchars 0
  simpa [get_kind] using this

theorem utf8_strlen_loop_result (buf : List Nat) (end_ : Nat) :
    ∀ (fuel pos : Nat) (len : Int),
      utf8_strlen_loop buf end_ fuel pos len = -1
        ∨ len ≤ utf8_strlen_loop buf end_ fuel pos len := by
  intro fuel
  induction fuel with
  | zero => intro pos len; left; simp [utf8_strlen_loop]
  | succ fuel ih =>
    intro pos len
    rw [utf8_strlen_loop]
    split
    · simp only
      split
      · left; rfl
      · split
        · left; rfl
        · rename_i p _ _
          rcases ih p (len + 1) with h | h
          · left; exact h
          · right; omega
    · right; exact le_refl _

theorem utf8_strlen_loop_pos (buf : List Nat) (end_ : Nat) (fuel pos : Nat) (len : Int)
    (h : pos < end_) :
    utf8_strlen_loop buf end_ (fuel + 1) pos len = -1
      ∨ len + 1 ≤ utf8_strlen_loop buf end_ (fuel + 1) pos len := by
  rw [utf8_strlen_loop, if_pos h]
  simp only
  split
  · left; rfl
  · split
    · left; rfl
    · rename_i p _ _
      exact utf8_strlen_loop_result buf end_ fuel p (len + 1)

/-- The display length is positive exactly for a non-empty candidate. -/
theorem name_len_pos_iff (name : List Nat) : 0 < name_len name ↔ name ≠ [] := by
  cases name with
  | nil => simp [name_len, utf8_strlen, utf8_strlen_loop]
  | cons a r =>
    simp only [ne_eq, reduceCtorEq, not_false_eq_true, iff_true]
    unfold name_len utf8_strlen
    simp only
    rcases utf8_strlen_loop_pos (a :: r) (a :: r).length (a :: r).length 0 0 (by simp)
      with h | h
    · rw [h]; simp
    · rw [if_neg (by omega)]; omega

/-! ## One line of `findRestTags` -/

theorem looksLikeUnderline_name_ne_nil (name line : List Nat)
    (h : looksLikeUnderline name line = true) : name ≠ [] := by
  simp only [looksLikeUnderline, Bool.and_eq_true, decide_eq_true_eq] at h
  exact (name_len_pos_iff name).mp h.1.1.2

/-- A confirming line: the candidate is emitted with the kind of the first byte and
pushed on the popped stack; the candidate stays. -/
theorem processLine_of_confirms (st : RestState) (line : List Nat)
    (h : confirms st line = true) :
    processLine st line =
      { kindchars := (get_kind st.kindchars (line.headD 0)).2
        nestingLevels := (st.corkQueue.length + 1) ::
          (getNestingLevel st.corkQueue (get_kind st.kindchars (line.headD 0)).1
            st.nestingLevels).2
        corkQueue := st.corkQueue ++
          [headingRecord st (get_kind st.kindchars (line.headD 0)).1]
        name := st.name
        lineNumber := st.lineNumber + 1 } := by
  simp only [confirms, Bool.and_eq_true, decide_eq_true_eq] at h
  have hne : 0 < st.name.length :=
    List.length_pos.mpr (looksLikeUnderline_name_ne_nil _ _ h.1)
  simp only [processLine, h.1, if_true, ge_iff_le, h.2, makeRestTag, hne, gt_iff_lt,
    makeTagEntry, initTagEntry, headingRecord]

/-- Any other line: nothing is emitted, the stack stays, and the line (or nothing,
when it starts with white space) becomes the candidate. -/
theorem processLine_of_not_confirms (st : RestState) (line : List Nat)
    (h : confirms st line = false) :
    processLine st line =
      { kindchars := if looksLikeUnderline st.name line = true
          then (get_kind st.kindchars (line.headD 0)).2 else st.kindchars
        nestingLevels := st.nestingLevels
        corkQueue := st.corkQueue
        name := if isspace (line.headD 0) = true then [] else line
        lineNumber := st.lineNumber + 1 } := by
  simp only [confirms, Bool.and_eq_false_iff, decide_eq_false_iff_not] at h
  by_cases hl : looksLikeUnderline st.name line = true
  · have hk : ¬ (0 ≤ (get_kind st.kindchars (line.headD 0)).1) := by
      rcases h with h | h
      · rw [hl] at h; exact absurd h (by simp)
      · exact h
    simp only [processLine, hl, if_true, ge_iff_le, hk, if_false, setCandidate]
  · simp only [processLine, hl, if_false, setCandidate, Bool.false_eq_true]

theorem confirms_iff (st : RestState) (line : List Nat) (hline : ∀ b ∈ line, b ≠ 0) :
    confirms st line = true ↔
      (st.name ≠ [] ∧ name_len st.name ≤ (line.length : Int)
        ∧ ispunct (line.headD 0) = true ∧ (∀ b ∈ line, b = line.headD 0)
        ∧ (get_kind st.kindchars (line.headD 0)).1 ≠ -1) := by
  simp only [confirms, looksLikeUnderline, Bool.and_eq_true, decide_eq_true_eq,
    issame_iff line hline, ge_iff_le, gt_iff_lt, name_len_pos_iff]
  have hk := get_kind_result st.kindchars (line.headD 0)
  constructor
  · rintro ⟨⟨⟨⟨h1, h2⟩, h3⟩, h4⟩, h5⟩
    exact ⟨h2, h1, h3, h4, by omega⟩
  · rintro ⟨h2, h1, h3, h4, h5⟩
    exact ⟨⟨⟨⟨h1, h2⟩, h3⟩, h4⟩, by omega⟩

/-- **C2** Underline decision rule. For every scan state and every incoming line (a
C string: no NUL byte), `findRestTags` emits a heading record for the line if and
only if the candidate is non-empty, the line's byte length is at least the
candidate's display length, the line's first byte is ASCII punctuation, every byte
of the line equals the first, and `get_kind` returns a level (not -1) for the first
byte; otherwise the sink is left as it was. In particular the title "Hi" followed by
"-" emits nothing, and the non-uniform line "--=--" never emits a record. -/
theorem underline_decision_rule (st : RestState) (line : List Nat)
    (hline : ∀ b ∈ line, b ≠ 0) :
    ((∃ e, (processLine st line).corkQueue = st.corkQueue ++ [e]) ↔
        (st.name ≠ [] ∧ name_len st.name ≤ (line.length : Int)
          ∧ ispunct (line.headD 0) = true ∧ (∀ b ∈ line, b = line.headD 0)
          ∧ (get_kind st.kindchars (line.headD 0)).1 ≠ -1))
      ∧ ((¬ ∃ e, (processLine st line).corkQueue = st.corkQueue ++ [e]) →
          (processLine st line).corkQueue = st.corkQueue)
      ∧ (st.name = bytes "Hi" → (processLine st (bytes "-")).corkQueue = st.corkQueue)
      ∧ (processLine st (bytes "--=--")).corkQueue = st.corkQueue := by
  have key : ∀ (l : List Nat), (∀ b ∈ l, b ≠ 0) →
      ((∃ e, (processLine st l).corkQueue = st.corkQueue ++ [e]) ↔ confirms st l = true)
      ∧ (confirms st l = false → (processLine st l).corkQueue = st.corkQueue) := by
    intro l _
    have hno : confirms st l = false → (processLine st l).corkQueue = st.corkQueue := by
      intro hc; rw [processLine_of_not_confirms st l hc]
    refine ⟨⟨?_, ?_⟩, hno⟩
    · rintro ⟨e, he⟩
      by_contra hc
      rw [hno (by simpa using hc)] at he
      have := congrArg List.length he
      simp at this
    · intro hc
      rw [processLine_of_confirms st l hc]
      exact ⟨_, rfl⟩
  refine ⟨?_, ?_, ?_, ?_⟩
  · rw [(key line hline).1, confirms_iff st line hline]
  · intro hne
    apply (key line hline).2
    rw [(key line hline).1] at hne
    simpa using hne
  · intro hname
    apply (key (bytes "-") (by decide)).2
    have h := confirms_iff st (bytes "-") (by decide)
    rw [hname] at h
    by_contra hc
    have h2 := (h.mp (by simpa using hc)).2.1
    revert h2
    decide
  · apply (key (bytes "--=--") (by decide)).2
    by_contra hc
    have h2 := ((confirms_iff st (bytes "--=--") (by decide)).mp (by simpa using hc)).2.2.2.1
    revert h2
    decide

/-- Witness of C2: after the title "Title" (at line 1), the line "=====" is read. -/
theorem underline_decision_rule_witness :
    (∃ e, (processLine ⟨[0, 0, 0, 0], [], [], bytes "Title", 1⟩ (bytes "=====")).corkQueue
        = [e]) ↔
      (bytes "Title" ≠ [] ∧ name_len (bytes "Title") ≤ ((bytes "=====").length : Int)
        ∧ ispunct ((bytes "=====").headD 0) = true
        ∧ (∀ b ∈ bytes "=====", b = (bytes "=====").headD 0)
        ∧ (get_kind [0, 0, 0, 0] ((bytes "=====").headD 0)).1 ≠ -1) :=
  (underline_decision_rule ⟨[0, 0, 0, 0], [], [], bytes "Title", 1⟩ (bytes "=====")
    (by decide)).1

/-! ## The scope stack -/

theorem getEntryInCorkQueue_append (queue : List tagEntryInfo) (e : tagEntryInfo)
    (h : Nat) :
    getEntryInCorkQueue (queue ++ [e]) h
      = if h = queue.length + 1 then some e else getEntryInCorkQueue queue h := by
  unfold getEntryInCorkQueue CORK_NIL
  by_cases h0 : h = 0
  · subst h0; simp
  · rw [if_neg h0, if_neg h0]
    simp only [List.get?_eq_getElem?]
    by_cases h1 : h = queue.length + 1
    · subst h1; simp
    · rw [if_neg h1]
      by_cases h2 : h - 1 < queue.length
      · rw [List.getElem?_append_left h2]
      · rw [List.getElem?_eq_none (by simp; omega), List.getElem?_eq_none (by omega)]

theorem getEntryInCorkQueue_le (queue : List tagEntryInfo) (h : Nat) (e : tagEntryInfo)
    (he : getEntryInCorkQueue queue h = some e) : 1 ≤ h ∧ h ≤ queue.length := by
  unfold getEntryInCorkQueue CORK_NIL at he
  by_cases h0 : h = 0
  · rw [if_pos h0] at he; cases he
  · rw [if_neg h0, List.get?_eq_getElem?] at he
    have := (List.getElem?_eq_some.mp he).1
    omega

/-- The stack left by `getNestingLevel` is the end of the stack it was given. -/
theorem getNestingLevel_suffix (queue : List tagEntryInfo) (kind : Int) :
    ∀ stack : List Nat, (getNestingLevel queue kind stack).2 <:+ stack := by
  intro stack
  induction stack with
  | nil => simp [getNestingLevel]
  | cons nl rest ih =>
    rw [getNestingLevel]
    split
    · exact ih.trans (List.suffix_cons _ _)
    · split
      · exact ih.trans (List.suffix_cons _ _)
      · exact List.suffix_refl _

/-- The level returned by `getNestingLevel` is the top of the stack it leaves. -/
theorem getNestingLevel_head (queue : List tagEntryInfo) (kind : Int) :
    ∀ stack : List Nat,
      (getNestingLevel queue kind stack).2.head? = (getNestingLevel queue kind stack).1 := by
  intro stack
  induction stack with
  | nil => simp [getNestingLevel]
  | cons nl rest ih =>
    rw [getNestingLevel]
    split
    · exact ih
    · split
      · exact ih
      · simp

/-- The level returned by `getNestingLevel` has a record of a smaller kind. -/
theorem getNestingLevel_some (queue : List tagEntryInfo) (kind : Int) :
    ∀ (stack : List Nat) (h : Nat), (getNestingLevel queue kind stack).1 = some h →
      ∃ e, getEntryInCorkQueue queue h = some e ∧ e.kind < kind := by
  intro stack
  induction stack with
  | nil => intro h hh; simp [getNestingLevel] at hh
  | cons nl rest ih =>
    intro h hh
    rw [getNestingLevel] at hh
    split at hh
    · exact ih h hh
    · rename_i e he
      split at hh
      · exact ih h hh
      · rename_i hk
        simp only [Option.some.injEq] at hh
        subst hh
        exact ⟨e, he, by omega⟩

/-- An entry with a record of a smaller kind is not popped. -/
theorem getNestingLevel_keeps (queue : List tagEntryInfo) (kind : Int) :
    ∀ (stack : List Nat) (h : Nat) (e : tagEntryInfo), h ∈ stack →
      getEntryInCorkQueue queue h = some e → e.kind < kind →
      h ∈ (getNestingLevel queue kind stack).2 := by
  intro stack
  induction stack with
  | nil => intro h e hm; simp at hm
  | cons nl rest ih =>
    intro h e hm he hk
    rw [getNestingLevel]
    rcases List.mem_cons.mp hm with heq | hrest
    · subst heq
      rw [he]
      simp only
      rw [if_neg (by omega)]
      simp
    · split
      · exact ih h e hrest he hk
      · split
        · exact ih h e hrest he hk
        · exact List.mem_cons_of_mem _ hrest

/-- Under the invariant, every record later than all entries left on the stack has
a kind of at least `kind`. -/
theorem getNestingLevel_later (queue : List tagEntryInfo) (stack : List Nat)
    (inv : StackInv queue stack) (kind : Int) :
    ∀ (n j : Nat) (e : tagEntryInfo), queue.length - j ≤ n →
      getEntryInCorkQueue queue j = some e →
      (∀ x ∈ (getNestingLevel queue kind stack).2, x < j) → kind ≤ e.kind := by
  intro n
  induction n with
  | zero =>
    intro j e hn he hx
    rcases inv.complete j e he with hmem | ⟨j', e', hlt, he', _⟩
    · by_contra hk
      have := hx j (getNestingLevel_keeps queue kind stack j e hmem he (by omega))
      omega
    · have := (getEntryInCorkQueue_le queue j' e' he').2
      omega
  | succ n ih =>
    intro j e hn he hx
    rcases inv.complete j e he with hmem | ⟨j', e', hlt, he', hle⟩
    · by_contra hk
      have := hx j (getNestingLevel_keeps queue kind stack j e hmem he (by omega))
      omega
    · have hb := (getEntryInCorkQueue_le queue j e he).1
      have := ih j' e' (by omega) he' (fun x hxm => lt_trans (hx x hxm) hlt)
      omega

/-- Under the invariant, the level returned by `getNestingLevel` is the most recently
emitted record of a kind below `kind`, and `NULL` exactly when there is none. -/
theorem getNestingLevel_most_recent (queue : List tagEntryInfo) (stack : List Nat)
    (inv : StackInv queue stack) (kind : Int) :
    (∀ h, (getNestingLevel queue kind stack).1 = some h ↔
        ((∃ e, getEntryInCorkQueue queue h = some e ∧ e.kind < kind)
          ∧ ∀ j e', h < j → getEntryInCorkQueue queue j = some e' → kind ≤ e'.kind))
      ∧ ((getNestingLevel queue kind stack).1 = none ↔
          ∀ j e', getEntryInCorkQueue queue j = some e' → kind ≤ e'.kind) := by
  have hsuf := getNestingLevel_suffix queue kind stack
  have hhead := getNestingLevel_head queue kind stack
  have hsorted : (getNestingLevel queue kind stack).2.Pairwise (fun a b => b < a) :=
    (inv.sorted.sublist hsuf.sublist).imp (fun h => h.1)
  have hbelow : ∀ h, (getNestingLevel queue kind stack).1 = some h →
      ∀ x ∈ (getNestingLevel queue kind stack).2, x ≤ h := by
    intro h hh x hx
    rw [hh] at hhead
    cases hrem : (getNestingLevel queue kind stack).2 with
    | nil => rw [hrem] at hx; simp at hx
    | cons a r =>
      rw [hrem] at hhead hsorted hx
      simp only [List.head?_cons, Option.some.injEq] at hhead
      subst hhead
      rcases List.mem_cons.mp hx with h1 | h1
      · omega
      · exact le_of_lt (List.rel_of_pairwise_cons hsorted h1)
  have hfwd : ∀ h, (getNestingLevel queue kind stack).1 = some h →
      ∀ j e', h < j → getEntryInCorkQueue queue j = some e' → kind ≤ e'.kind := by
    intro h hh j e' hlt he'
    exact getNestingLevel_later queue stack inv kind _ j e' (le_refl _) he'
      (fun x hx => lt_of_le_of_lt (hbelow h hh x hx) hlt)
  constructor
  · intro h
    constructor
    · intro hh
      exact ⟨getNestingLevel_some queue kind stack h hh, hfwd h hh⟩
    · rintro ⟨⟨e, he, hk⟩, hall⟩
      have hmem : h ∈ stack := by
        rcases inv.complete h e he with hm | ⟨j, e', hlt, he', hle⟩
        · exact hm
        · have := hall j e' hlt he'
          omega
      have hkeep := getNestingLevel_keeps queue kind stack h e hmem he hk
      cases hres : (getNestingLevel queue kind stack).1 with
      | none =>
        rw [hres] at hhead
        rw [List.head?_eq_none_iff.mp hhead] at hkeep
        simp at hkeep
      | some h' =>
        obtain ⟨e2, he2, hk2⟩ := getNestingLevel_some queue kind stack h' hres
        have hle := hbelow h' hres h hkeep
        rcases Nat.lt_or_ge h h' with hlt | hge
        · have := hall h' e2 hlt he2
          omega
        · have : h' = h := by omega
          rw [this]
  · constructor
    · intro hnone j e' he'
      have hnil : (getNestingLevel queue kind stack).2 = [] := by
        rw [hnone] at hhead
        exact List.head?_eq_none_iff.mp hhead
      exact getNestingLevel_later queue stack inv kind _ j e' (le_refl _) he'
        (by rw [hnil]; simp)
    · intro hall
      cases hres : (getNestingLevel queue kind stack).1 with
      | none => rfl
      | some h' =>
        obtain ⟨e2, he2, hk2⟩ := getNestingLevel_some queue kind stack h' hres
        have := hall h' e2 he2
        omega

/-- Under the invariant, every entry left on the stack has a kind below `kind`. -/
theorem getNestingLevel_left_below (queue : List tagEntryInfo) (stack : List Nat)
    (inv : StackInv queue stack) (kind : Int) :
    ∀ b ∈ (getNestingLevel queue kind stack).2, ∀ eb,
      getEntryInCorkQueue queue b = some eb → eb.kind < kind := by
  have hsuf := getNestingLevel_suffix queue kind stack
  have hhead := getNestingLevel_head queue kind stack
  have hsorted := inv.sorted.sublist hsuf.sublist
  intro b hb eb heb
  cases hrem : (getNestingLevel queue kind stack).2 with
  | nil => rw [hrem] at hb; simp at hb
  | cons a r =>
    rw [hrem] at hhead hsorted hb
    simp only [List.head?_cons] at hhead
    obtain ⟨ea, hea, hka⟩ := getNestingLevel_some queue kind stack a hhead.symm
    rcases List.mem_cons.mp hb with h1 | h1
    · subst h1
      rw [hea] at heb
      cases heb
      exact hka
    · have := (List.rel_of_pairwise_cons hsorted h1).2 ea eb hea heb
      omega

/-- The invariant survives a heading: pop for its kind, emit it, push its handle. -/
theorem StackInv_push (queue : List tagEntryInfo) (stack : List Nat)
    (inv : StackInv queue stack) (e : tagEntryInfo) :
    StackInv (queue ++ [e])
      ((queue.length + 1) :: (getNestingLevel queue e.kind stack).2) := by
  have hsuf := getNestingLevel_suffix queue e.kind stack
  have hold : ∀ x e0, getEntryInCorkQueue queue x = some e0 →
      getEntryInCorkQueue (queue ++ [e]) x = some e0 := by
    intro x e0 h0
    have := (getEntryInCorkQueue_le queue x e0 h0).2
    rw [getEntryInCorkQueue_append, if_neg (by omega), h0]
  have hnew : getEntryInCorkQueue (queue ++ [e]) (queue.length + 1) = some e := by
    rw [getEntryInCorkQueue_append, if_pos rfl]
  have hmemold : ∀ x ∈ (getNestingLevel queue e.kind stack).2,
      ∃ e0, getEntryInCorkQueue queue x = some e0 :=
    fun x hx => inv.valid x (hsuf.subset hx)
  refine ⟨?_, ?_, ?_⟩
  · intro h hh
    rcases List.mem_cons.mp hh with h1 | h1
    · subst h1; exact ⟨e, hnew⟩
    · obtain ⟨e0, h0⟩ := hmemold h h1
      exact ⟨e0, hold h e0 h0⟩
  · rw [List.pairwise_cons]
    constructor
    · intro b hb
      obtain ⟨e0, h0⟩ := hmemold b hb
      refine ⟨by have := (getEntryInCorkQueue_le queue b e0 h0).2; omega, ?_⟩
      intro ea eb hea heb
      rw [hnew] at hea
      rw [hold b e0 h0] at heb
      cases hea
      cases heb
      exact getNestingLevel_left_below queue stack inv e.kind b hb e0 h0
    · refine (inv.sorted.sublist hsuf.sublist).imp_of_mem ?_
      intro a b ha hb hab
      refine ⟨hab.1, ?_⟩
      intro ea eb hea heb
      obtain ⟨ea0, ha0⟩ := hmemold a ha
      obtain ⟨eb0, hb0⟩ := hmemold b hb
      rw [hold a ea0 ha0] at hea
      rw [hold b eb0 hb0] at heb
      cases hea
      cases heb
      exact hab.2 ea eb ha0 hb0
  · intro h e0 h0
    rw [getEntryInCorkQueue_append] at h0
    by_cases hlast : h = queue.length + 1
    · left; rw [hlast]; simp
    · rw [if_neg hlast] at h0
      have hle := (getEntryInCorkQueue_le queue h e0 h0).2
      rcases inv.complete h e0 h0 with hm | ⟨j, e', hlt, he', hk⟩
      · by_cases hk : e0.kind < e.kind
        · left
          exact List.mem_cons_of_mem _
            (getNestingLevel_keeps queue e.kind stack h e0 hm h0 hk)
        · right
          exact ⟨queue.length + 1, e, by omega, hnew, by omega⟩
      · right
        exact ⟨j, e', hlt, hold j e' he', hk⟩

/-- One line of the scan keeps the invariant. -/
theorem StackInv_processLine (st : RestState) (line : List Nat)
    (inv : StackInv st.corkQueue st.nestingLevels) :
    StackInv (processLine st line).corkQueue (processLine st line).nestingLevels := by
  cases hc : confirms st line with
  | true =>
    rw [processLine_of_confirms st line hc]
    exact StackInv_push st.corkQueue st.nestingLevels inv
      (headingRecord st (get_kind st.kindchars (line.headD 0)).1)
  | false =>
    rw [processLine_of_not_confirms st line hc]
    exact inv

theorem StackInv_foldl (doc : List (List Nat)) :
    ∀ st : RestState, StackInv st.corkQueue st.nestingLevels →
      StackInv (doc.foldl processLine st).corkQueue
        (doc.foldl processLine st).nestingLevels := by
  induction doc with
  | nil => intro st inv; exact inv
  | cons line doc ih =>
    intro st inv
    exact ih (processLine st line) (StackInv_processLine st line inv)

/-- Every state reached by `findRestTags` satisfies the stack invariant. -/
theorem StackInv_findRestTags (stale : RestState) (doc : List (List Nat)) :
    StackInv (findRestTags stale doc).corkQueue (findRestTags stale doc).nestingLevels := by
  apply StackInv_foldl
  refine ⟨?_, ?_, ?_⟩
  · intro h hh; simp [startScan] at hh
  · simp [startScan]
  · intro h e he
    have := getEntryInCorkQueue_le _ h e he
    simp [startScan] at this
    omega

theorem findRestTags_append (stale : RestState) (doc : List (List Nat)) (line : List Nat) :
    findRestTags stale (doc ++ [line]) = processLine (findRestTags stale doc) line := by
  simp [findRestTags, List.foldl_append]

theorem startScan_eq (stale : RestState) :
    startScan stale = ⟨[0, 0, 0, 0], [], [], [], 0⟩ := rfl

/-- **C3** Parent selection. Let `st` be the state `findRestTags` has reached after
the lines `doc`, let `line` confirm a heading of level `kind` there, and let `popped`
be what `getNestingLevel` returns for it. Then the new handle is pushed on the stack
`popped.2`, whose top is the returned level `popped.1`; that level is the handle `h`
exactly when `h` is the most recently emitted record with a level strictly below
`kind` (it has such a record and every later record has a level `>= kind`); and it is
none exactly when no record emitted so far has a level below `kind`. For the titles
A, B, C underlined with `===`, `---`, `===`: A has no parent, B has parent A
(handle 1), C has no parent; and after A, B, C, D underlined with `===`, `---`,
`~~~`, `===`, a heading E of level 2 (underline `~~~`) nests directly under D
(handle 4, level 0). -/
theorem parent_selection (stale : RestState) (doc : List (List Nat)) (st : RestState)
    (hst : st = findRestTags stale doc) (line : List Nat)
    (hconf : confirms st line = true) (kind : Int)
    (hkind : kind = (get_kind st.kindchars (line.headD 0)).1)
    (popped : Option Nat × List Nat)
    (hpopped : popped = getNestingLevel st.corkQueue kind st.nestingLevels) :
    (processLine st line).nestingLevels = (st.corkQueue.length + 1) :: popped.2
      ∧ popped.2.head? = popped.1
      ∧ (∀ h, popped.1 = some h ↔
          ((∃ e, getEntryInCorkQueue st.corkQueue h = some e ∧ e.kind < kind)
            ∧ ∀ j e', h < j → getEntryInCorkQueue st.corkQueue j = some e' →
                kind ≤ e'.kind))
      ∧ (popped.1 = none ↔
          ∀ j e', getEntryInCorkQueue st.corkQueue j = some e' → kind ≤ e'.kind)
      ∧ (getNestingLevel (findRestTags stale []).corkQueue 0
            (findRestTags stale []).nestingLevels).1 = none
      ∧ (getNestingLevel
            (findRestTags stale [bytes "A", bytes "===", bytes "B"]).corkQueue 1
            (findRestTags stale [bytes "A", bytes "===", bytes "B"]).nestingLevels).1
          = some 1
      ∧ (getNestingLevel
            (findRestTags stale
              [bytes "A", bytes "===", bytes "B", bytes "---", bytes "C"]).corkQueue 0
            (findRestTags stale
              [bytes "A", bytes "===", bytes "B", bytes "---", bytes "C"]).nestingLevels).1
          = none
      ∧ (getNestingLevel
            (findRestTags stale
              [bytes "A", bytes "===", bytes "B", bytes "---", bytes "C", bytes "~~~",
                bytes "D", bytes "===", bytes "E"]).corkQueue 2
            (findRestTags stale
              [bytes "A", bytes "===", bytes "B", bytes "---", bytes "C", bytes "~~~",
                bytes "D", bytes "===", bytes "E"]).nestingLevels).1
          = some 4 := by
  have inv : StackInv st.corkQueue st.nestingLevels := by
    rw [hst]; exact StackInv_findRestTags stale doc
  have hchar := getNestingLevel_most_recent st.corkQueue st.nestingLevels inv kind
  refine ⟨?_, ?_, ?_, ?_, ?_, ?_, ?_, ?_⟩
  · rw [processLine_of_confirms st line hconf, hpopped, hkind]
  · rw [hpopped]; exact getNestingLevel_head _ _ _
  · rw [hpopped]; exact hchar.1
  · rw [hpopped]; exact hchar.2
  · simp only [findRestTags, startScan_eq]; decide
  · simp only [findRestTags, startScan_eq]; decide
  · simp only [findRestTags, startScan_eq]; decide
  · simp only [findRestTags, startScan_eq]; decide

/-- Witness of C3: after "A", "===", "B" the line "---" confirms B at level 1, and
the level returned for it is the handle 1 of A, the only record so far. -/
theorem parent_selection_witness :
    (processLine (findRestTags ⟨[], [], [], [], 0⟩ [bytes "A", bytes "===", bytes "B"])
        (bytes "---")).nestingLevels = [2, 1]
      ∧ (getNestingLevel
          (findRestTags ⟨[], [], [], [], 0⟩ [bytes "A", bytes "===", bytes "B"]).corkQueue 1
          (findRestTags ⟨[], [], [], [], 0⟩
            [bytes "A", bytes "===", bytes "B"]).nestingLevels).1 = some 1 := by
  have h := parent_selection ⟨[], [], [], [], 0⟩ [bytes "A", bytes "===", bytes "B"]
    (findRestTags ⟨[], [], [], [], 0⟩ [bytes "A", bytes "===", bytes "B"]) rfl
    (bytes "---") (by decide) 1 (by decide)
    (getNestingLevel
      (findRestTags ⟨[], [], [], [], 0⟩ [bytes "A", bytes "===", bytes "B"]).corkQueue 1
      (findRestTags ⟨[], [], [], [], 0⟩ [bytes "A", bytes "===", bytes "B"]).nestingLevels)
    rfl
  refine ⟨?_, ?_⟩
  · rw [h.1]; decide
  · exact (h.2.2.1 1).mpr ⟨⟨⟨bytes "A", 0, 1, 0⟩, by decide, by decide⟩, by
      intro j e' hj he'
      have := (getEntryInCorkQueue_le _ j e' he').2
      have hl : (findRestTags ⟨[], [], [], [], 0⟩
        [bytes "A", bytes "===", bytes "B"]).corkQueue.length = 1 := by decide
      omega⟩

/-! ## The UTF-8 length -/

theorem lead_bits_one : ∀ b < 0x80, b &&& 0x80 = 0 := by decide

theorem lead_bits_two : ∀ x < 32,
    (0xC0 + x) &&& 0x80 ≠ 0 ∧ (0xC0 + x) &&& 0xe0 = 0xc0 := by decide

theorem lead_bits_three : ∀ x < 16,
    (0xE0 + x) &&& 0x80 ≠ 0 ∧ (0xE0 + x) &&& 0xe0 ≠ 0xc0
      ∧ (0xE0 + x) &&& 0xf0 = 0xe0 := by decide

theorem lead_bits_four : ∀ x < 5,
    (0xF0 + x) &&& 0x80 ≠ 0 ∧ (0xF0 + x) &&& 0xe0 ≠ 0xc0
      ∧ (0xF0 + x) &&& 0xf0 ≠ 0xe0 ∧ (0xF0 + x) &&& 0xf8 = 0xf0 := by decide

theorem utf8_encode_cp_length_pos (cp : Nat) : 0 < (utf8_encode_cp cp).length := by
  unfold utf8_encode_cp
  split_ifs <;> simp

/-- The leading byte of the encoding of a code point selects the run length that
is the length of the encoding. -/
theorem utf8_encode_cp_lead (cp : Nat) (hcp : cp < 0x110000) (pos : Nat) :
    (if (utf8_encode_cp cp).headD 0 &&& 0x80 = 0 then some (pos + 1)
      else if (utf8_encode_cp cp).headD 0 &&& 0xe0 = 0xc0 then some (pos + 2)
      else if (utf8_encode_cp cp).headD 0 &&& 0xf0 = 0xe0 then some (pos + 3)
      else if (utf8_encode_cp cp).headD 0 &&& 0xf8 = 0xf0 then some (pos + 4)
      else none) = some (pos + (utf8_encode_cp cp).length) := by
  unfold utf8_encode_cp
  by_cases h1 : cp < 0x80
  · rw [if_pos h1]
    simp only [List.headD_cons, List.length_singleton]
    rw [if_pos (lead_bits_one cp h1)]
  · rw [if_neg h1]
    by_cases h2 : cp < 0x800
    · rw [if_pos h2]
      obtain ⟨ha, hb⟩ := lead_bits_two (cp / 64) (by omega)
      simp only [List.headD_cons, List.length_cons, List.length_nil]
      rw [if_neg ha, if_pos hb]
    · rw [if_neg h2]
      by_cases h3 : cp < 0x10000
      · rw [if_pos h3]
        obtain ⟨ha, hb, hc⟩ := lead_bits_three (cp / 4096) (by omega)
        simp only [List.headD_cons, List.length_cons, List.length_nil]
        rw [if_neg ha, if_neg hb, if_pos hc]
      · rw [if_neg h3]
        obtain ⟨ha, hb, hc, hd⟩ := lead_bits_four (cp / 262144) (by omega)
        simp only [List.headD_cons, List.length_cons, List.length_nil]
        rw [if_neg ha, if_neg hb, if_neg hc, if_pos hd]

theorem utf8_encode_length_ge (cps : List Nat) : cps.length ≤ (utf8_encode cps).length := by
  induction cps with
  | nil => simp [utf8_encode]
  | cons cp cps ih =>
    have := utf8_encode_cp_length_pos cp
    simp only [utf8_encode, List.length_append, List.length_cons]
    omega

/-- The reference encoder agrees with the UTF-8 encoder of the core library on the
first and last code point of each encoded length and on some in between. -/
theorem utf8_encode_cp_agrees_with_core :
    ∀ cp ∈ [0x0, 0x41, 0x7F, 0x80, 0xE9, 0x7FF, 0x800, 0x20AC, 0xD7FF, 0xE000, 0xFFFF,
        0x10000, 0x1D11E, 0x10FFFF],
      (String.utf8EncodeChar (Char.ofNat cp)).map UInt8.toNat = utf8_encode_cp cp := by
  decide

/-- The walk of `utf8_strlen` over an encoding, started at the boundary after `pre`,
counts its code points. -/
theorem utf8_strlen_loop_encode (cps : List Nat) :
    ∀ (pre : List Nat) (fuel : Nat) (len : Int), (∀ cp ∈ cps, cp < 0x110000) →
      cps.length < fuel →
      utf8_strlen_loop (pre ++ utf8_encode cps) (pre ++ utf8_encode cps).length fuel
          pre.length len
        = len + cps.length := by
  induction cps with
  | nil =>
    intro pre fuel len _ hfuel
    obtain ⟨f, rfl⟩ : ∃ f, fuel = f + 1 := ⟨fuel - 1, by simp at hfuel; omega⟩
    simp [utf8_encode, utf8_strlen_loop]
  | cons cp cps ih =>
    intro pre fuel len hcps hfuel
    obtain ⟨f, rfl⟩ : ∃ f, fuel = f + 1 := ⟨fuel - 1, by simp at hfuel; omega⟩
    have hcp : cp < 0x110000 := hcps cp (by simp)
    have hpos := utf8_encode_cp_length_pos cp
    have hlt : pre.length < (pre ++ utf8_encode (cp :: cps)).length := by
      simp only [utf8_encode, List.length_append]; omega
    have hb : (pre ++ utf8_encode (cp :: cps)).getD pre.length 0
        = (utf8_encode_cp cp).headD 0 := by
      rw [List.getD_eq_getElem?_getD, List.getElem?_append_right (le_refl _),
        Nat.sub_self, utf8_encode]
      cases henc : utf8_encode_cp cp with
      | nil => rw [henc] at hpos; simp at hpos
      | cons a r => simp
    rw [utf8_strlen_loop, if_pos hlt]
    simp only
    rw [hb, utf8_encode_cp_lead cp hcp pre.length]
    simp only
    have hle : ¬ (pre.length + (utf8_encode_cp cp).length
        > (pre ++ utf8_encode (cp :: cps)).length) := by
      simp only [utf8_encode, List.length_append]; omega
    rw [if_neg hle]
    have hbuf : pre ++ utf8_encode (cp :: cps)
        = (pre ++ utf8_encode_cp cp) ++ utf8_encode cps := by
      simp [utf8_encode]
    have hlen : pre.length + (utf8_encode_cp cp).length
        = (pre ++ utf8_encode_cp cp).length := by simp
    rw [hbuf, hlen, ih (pre ++ utf8_encode_cp cp) f (len + 1)
      (fun c hc => hcps c (List.mem_cons_of_mem _ hc))
      (by simp at hfuel; omega)]
    simp only [List.length_cons]
    push_cast
    ring

/-- **C4** UTF-8 length. For every list of Unicode code points (values up to
U+10FFFF), `utf8_strlen` applied to its well-formed UTF-8 encoding, with `buf_len`
the byte length of the encoding, returns the number of code points; so the display
length `name_len` that `findRestTags` compares the underline with is the code-point
count of such a title, not its byte count. -/
theorem utf8_strlen_counts_code_points (cps : List Nat) (hcps : ∀ cp ∈ cps, cp < 0x110000) :
    utf8_strlen (utf8_encode cps) (utf8_encode cps).length = (cps.length : Int)
      ∧ name_len (utf8_encode cps) = (cps.length : Int) := by
  have h : utf8_strlen (utf8_encode cps) (utf8_encode cps).length = (cps.length : Int) := by
    have := utf8_strlen_loop_encode cps [] ((utf8_encode cps).length + 1) 0 hcps
      (by have := utf8_encode_length_ge cps; omega)
    simpa [utf8_strlen] using this
  refine ⟨h, ?_⟩
  unfold name_len
  simp only
  rw [h, if_neg (by omega)]

/-- Witness of C4: the code points U+0041, U+00E9, U+20AC, U+1D11E take 10 bytes and
count as 4. -/
theorem utf8_strlen_counts_code_points_witness :
    (utf8_encode [0x41, 0xE9, 0x20AC, 0x1D11E]).length = 10
      ∧ utf8_strlen (utf8_encode [0x41, 0xE9, 0x20AC, 0x1D11E])
          (utf8_encode [0x41, 0xE9, 0x20AC, 0x1D11E]).length = 4
      ∧ name_len (utf8_encode [0x41, 0xE9, 0x20AC, 0x1D11E]) = 4 :=
  ⟨by decide,
    (utf8_strlen_counts_code_points [0x41, 0xE9, 0x20AC, 0x1D11E] (by decide)).1,
    (utf8_strlen_counts_code_points [0x41, 0xE9, 0x20AC, 0x1D11E] (by decide)).2⟩

/-- Under the invariant every entry of the stack has a level, and the levels
strictly increase from bottom to top. -/
theorem StackInv_levels (st : RestState) (inv : StackInv st.corkQueue st.nestingLevels) :
    ∃ levels : List Int, stackLevels st = levels.map some
      ∧ levels.Pairwise (fun a b => a < b) := by
  refine ⟨st.nestingLevels.reverse.map
    (fun h => ((getEntryInCorkQueue st.corkQueue h).map tagEntryInfo.kind).getD 0), ?_, ?_⟩
  · unfold stackLevels
    rw [List.map_map]
    apply List.map_congr_left
    intro h hh
    obtain ⟨e, he⟩ := inv.valid h (List.mem_reverse.mp hh)
    simp [he]
  · rw [List.pairwise_map, List.pairwise_reverse]
    refine inv.sorted.imp_of_mem ?_
    intro a b ha hb hab
    obtain ⟨ea, hea⟩ := inv.valid a ha
    obtain ⟨eb, heb⟩ := inv.valid b hb
    have := hab.2 ea eb hea heb
    simpa [hea, heb] using this

/-- **C8** Scope-stack invariant. In the state `findRestTags` reaches when, after the
lines `doc`, the line `line` confirms a heading -- that is, immediately after the
heading is pushed -- the handle of the new record is on top of the stack, every
stack entry has a level, and the levels of the stack entries are strictly increasing
from bottom to top. -/
theorem scope_stack_strictly_increasing (stale : RestState) (doc : List (List Nat))
    (line : List Nat) (hconf : confirms (findRestTags stale doc) line = true) :
    (findRestTags stale (doc ++ [line])).nestingLevels.head?
        = some ((findRestTags stale doc).corkQueue.length + 1)
      ∧ (findRestTags stale (doc ++ [line])).corkQueue.length
        = (findRestTags stale doc).corkQueue.length + 1
      ∧ ∃ levels : List Int,
          stackLevels (findRestTags stale (doc ++ [line])) = levels.map some
            ∧ levels.Pairwise (fun a b => a < b) := by
  refine ⟨?_, ?_, StackInv_levels _ (StackInv_findRestTags stale (doc ++ [line]))⟩
  · rw [findRestTags_append, processLine_of_confirms _ line hconf]
    rfl
  · rw [findRestTags_append, processLine_of_confirms _ line hconf]
    simp

/-- Witness of C8: after the title A under `===`, the title B under `---` leaves
the stack A, B with the levels 0, 1. -/
theorem scope_stack_strictly_increasing_witness :
    stackLevels (findRestTags ⟨[], [], [], [], 0⟩
        ([bytes "A", bytes "===", bytes "B"] ++ [bytes "---"])) = [some 0, some 1]
      ∧ ∃ levels : List Int,
          stackLevels (findRestTags ⟨[], [], [], [], 0⟩
            ([bytes "A", bytes "===", bytes "B"] ++ [bytes "---"])) = levels.map some
            ∧ levels.Pairwise (fun a b => a < b) :=
  ⟨by decide,
    (scope_stack_strictly_increasing ⟨[], [], [], [], 0⟩
      [bytes "A", bytes "===", bytes "B"] (bytes "---") (by decide)).2.2⟩

/-! ## Line numbers -/

theorem processLine_lineNumber (st : RestState) (line : List Nat) :
    (processLine st line).lineNumber = st.lineNumber + 1 := by
  cases hc : confirms st line with
  | true => rw [processLine_of_confirms st line hc]
  | false => rw [processLine_of_not_confirms st line hc]

/-- The line counter after the lines `doc` is their number. -/
theorem findRestTags_lineNumber (stale : RestState) (doc : List (List Nat)) :
    (findRestTags stale doc).lineNumber = doc.length := by
  induction doc using List.reverseRecOn with
  | nil => rfl
  | append_singleton doc line ih =>
    rw [findRestTags_append, processLine_lineNumber, ih]
    simp

/-- **C5** Line-number offset. Every record in the sink after `findRestTags` has
scanned `doc` was emitted by an underline line of `doc`: there is a position `k`
(the line has the 1-based number `k + 1`) such that the line at `k`, read in the
state reached after the `k` lines before it, confirms a heading and adds exactly this
record to the sink; and the record's line number is that line's number minus one. -/
theorem line_number_offset (stale : RestState) (doc : List (List Nat)) (e : tagEntryInfo)
    (he : e ∈ (findRestTags stale doc).corkQueue) :
    ∃ (k : Nat) (line : List Nat), doc.get? k = some line
      ∧ confirms (findRestTags stale (doc.take k)) line = true
      ∧ (processLine (findRestTags stale (doc.take k)) line).corkQueue
          = (findRestTags stale (doc.take k)).corkQueue ++ [e]
      ∧ e.lineNumber = (k + 1) - 1 := by
  induction doc using List.reverseRecOn with
  | nil => simp [findRestTags, startScan] at he
  | append_singleton doc line ih =>
    have hold : e ∈ (findRestTags stale doc).corkQueue →
        ∃ (k : Nat) (l : List Nat), (doc ++ [line]).get? k = some l
          ∧ confirms (findRestTags stale ((doc ++ [line]).take k)) l = true
          ∧ (processLine (findRestTags stale ((doc ++ [line]).take k)) l).corkQueue
              = (findRestTags stale ((doc ++ [line]).take k)).corkQueue ++ [e]
          ∧ e.lineNumber = (k + 1) - 1 := by
      intro hmem
      obtain ⟨k, l, hk, h1, h2, h3⟩ := ih hmem
      have hlt : k < doc.length := by
        rw [List.get?_eq_getElem?] at hk
        exact (List.getElem?_eq_some.mp hk).1
      refine ⟨k, l, ?_, ?_, ?_, h3⟩
      · rw [List.get?_eq_getElem?, List.getElem?_append_left hlt, ← List.get?_eq_getElem?]
        exact hk
      · rw [List.take_append_of_le_length (le_of_lt hlt)]; exact h1
      · rw [List.take_append_of_le_length (le_of_lt hlt)]; exact h2
    rw [findRestTags_append] at he
    cases hc : confirms (findRestTags stale doc) line with
    | false =>
      rw [processLine_of_not_confirms _ line hc] at he
      exact hold he
    | true =>
      rw [processLine_of_confirms _ line hc] at he
      rcases List.mem_append.mp he with hmem | hnew
      · exact hold hmem
      · have heq := List.mem_singleton.mp hnew
        have htake : (doc ++ [line]).take doc.length = doc := by simp
        refine ⟨doc.length, line, by simp, ?_, ?_, ?_⟩
        · rw [htake]; exact hc
        · rw [htake, processLine_of_confirms _ line hc, heq]
        · rw [heq, headingRecord, findRestTags_lineNumber]

/-- Witness of C5: the record of the title at line 3, confirmed by line 4. -/
theorem line_number_offset_witness :
    ∃ (k : Nat) (line : List Nat),
      [bytes "A", bytes "===", bytes "B", bytes "---"].get? k = some line
      ∧ confirms (findRestTags ⟨[], [], [], [], 0⟩
          ([bytes "A", bytes "===", bytes "B", bytes "---"].take k)) line = true
      ∧ (processLine (findRestTags ⟨[], [], [], [], 0⟩
            ([bytes "A", bytes "===", bytes "B", bytes "---"].take k)) line).corkQueue
          = (findRestTags ⟨[], [], [], [], 0⟩
              ([bytes "A", bytes "===", bytes "B", bytes "---"].take k)).corkQueue
            ++ [⟨bytes "B", 1, 3, 0⟩]
      ∧ (⟨bytes "B", 1, 3, 0⟩ : tagEntryInfo).lineNumber = (k + 1) - 1 :=
  line_number_offset ⟨[], [], [], [], 0⟩ [bytes "A", bytes "===", bytes "B", bytes "---"]
    ⟨bytes "B", 1, 3, 0⟩ (by decide)

/-! ## The fifth symbol -/

/-- A table without a free slot is left as it is by every call. -/
theorem get_kind_loop_no_free_slot (c : Nat) :
    ∀ (ks : List Nat) (i : Nat), (∀ x ∈ ks, x ≠ 0) → (get_kind_loop c i ks).2 = ks := by
  intro ks
  induction ks with
  | nil => intro i _; simp [get_kind_loop]
  | cons k ks ih =>
    intro i hnz
    have hk0 : k ≠ 0 := hnz k (by simp)
    rw [get_kind_loop]
    by_cases hkc : k = c
    · rw [if_pos hkc]
    · rw [if_neg hkc, if_neg hk0]
      simp only
      rw [ih (i + 1) (fun x hx => hnz x (List.mem_cons_of_mem _ hx))]

theorem kindcharsAfter_no_free_slot (cs : List Nat) :
    ∀ ks : List Nat, (∀ x ∈ ks, x ≠ 0) → kindcharsAfter ks cs = ks := by
  induction cs with
  | nil => intro ks _; rfl
  | cons c cs ih =>
    intro ks hnz
    rw [kindcharsAfter, get_kind, get_kind_loop_no_free_slot c ks 0 hnz]
    exact ih ks hnz

theorem ispunct_not_isspace (c : Nat) (h : ispunct c = true) : isspace c = false := by
  simp only [ispunct, Bool.or_eq_true, Bool.and_eq_true, decide_eq_true_eq] at h
  simp only [isspace, Bool.or_eq_false_iff, Bool.and_eq_false_iff, decide_eq_false_iff_not]
  omega

/-- **C6** Fifth symbol is rejected. When the level table has no free slot left (as
after four distinct bytes have been assigned levels), `get_kind` on a byte `c` that
is not in the table returns -1 and leaves the table unchanged, and it does so on
every later occurrence, whatever calls come in between; and a line with first byte
`c` that passes the test of rest.c:175-176 is treated as ordinary text: no record is
emitted, the scope stack and the table are unchanged, and the line becomes the
candidate. -/
theorem fifth_symbol_rejected (st : RestState) (c : Nat)
    (hlen : st.kindchars.length = SECTION_COUNT) (hfull : ∀ x ∈ st.kindchars, x ≠ 0)
    (hc : c ∉ st.kindchars) :
    get_kind st.kindchars c = (-1, st.kindchars)
      ∧ (∀ cs : List Nat,
          get_kind (kindcharsAfter st.kindchars cs) c = (-1, kindcharsAfter st.kindchars cs)
            ∧ kindcharsAfter st.kindchars cs = st.kindchars)
      ∧ (∀ line : List Nat, looksLikeUnderline st.name line = true → line.headD 0 = c →
          processLine st line =
            { kindchars := st.kindchars
              nestingLevels := st.nestingLevels
              corkQueue := st.corkQueue
              name := line
              lineNumber := st.lineNumber + 1 }) := by
  have _ := hlen
  have h1 : get_kind st.kindchars c = (-1, st.kindchars) :=
    get_kind_loop_full c st.kindchars 0 hc hfull
  refine ⟨h1, ?_, ?_⟩
  · intro cs
    rw [kindcharsAfter_no_free_slot cs st.kindchars hfull]
    exact ⟨h1, rfl⟩
  · intro line hl hhead
    have hpunct : ispunct (line.headD 0) = true := by
      simp only [looksLikeUnderline, Bool.and_eq_true] at hl
      exact hl.1.2
    have hconf : confirms st line = false := by
      simp only [confirms, hl, hhead, h1, Bool.true_and]
      decide
    rw [processLine_of_not_confirms st line hconf, if_pos hl, hhead, h1,
      ← hhead, ispunct_not_isspace _ hpunct]
    simp

/-- Witness of C6: with `= - ~ ^` assigned, the line `#####` under the title "Title"
is rejected and becomes the candidate. -/
theorem fifth_symbol_rejected_witness :
    get_kind [61, 45, 126, 94] 35 = (-1, [61, 45, 126, 94])
      ∧ processLine ⟨[61, 45, 126, 94], [1], [⟨bytes "A", 0, 1, 0⟩], bytes "Title", 5⟩
          (bytes "#####")
        = ⟨[61, 45, 126, 94], [1], [⟨bytes "A", 0, 1, 0⟩], bytes "#####", 6⟩ :=
  ⟨(fifth_symbol_rejected
      ⟨[61, 45, 126, 94], [1], [⟨bytes "A", 0, 1, 0⟩], bytes "Title", 5⟩ 35
      (by decide) (by decide) (by decide)).1,
    (fifth_symbol_rejected
      ⟨[61, 45, 126, 94], [1], [⟨bytes "A", 0, 1, 0⟩], bytes "Title", 5⟩ 35
      (by decide) (by decide) (by decide)).2.2 (bytes "#####") (by decide) (by decide)⟩

/-! ## Stability of the level table -/

/-- A byte that is classified without a change of the table is classified the same
way after a call for any byte. -/
theorem get_kind_loop_stable (b c : Nat) (hb : b ≠ 0) :
    ∀ (ks : List Nat) (i : Nat) (k : Int), get_kind_loop b i ks = (k, ks) →
      get_kind_loop b i (get_kind_loop c i ks).2 = (k, (get_kind_loop c i ks).2) := by
  intro ks
  induction ks with
  | nil => intro i k h; simpa [get_kind_loop] using h
  | cons x xs ih =>
    intro i k h
    by_cases hxb : x = b
    · subst hxb
      rw [get_kind_loop, if_pos rfl] at h
      have hk : (i : Int) = k := (Prod.mk.inj h).1
      by_cases hxc : x = c
      · rw [get_kind_loop, if_pos hxc, get_kind_loop, if_pos rfl, hk]
      · rw [get_kind_loop, if_neg hxc, if_neg hb]
        simp only
        rw [get_kind_loop, if_pos rfl, hk]
    · by_cases hx0 : x = 0
      · rw [get_kind_loop, if_neg hxb, if_pos hx0] at h
        have h2 := (Prod.mk.inj h).2
        rw [hx0] at h2
        exact absurd (List.cons.inj h2).1 hb
      · rw [get_kind_loop, if_neg hxb, if_neg hx0] at h
        have h1 := (Prod.mk.inj h).1
        have h2 := List.tail_eq_of_cons_eq (Prod.mk.inj h).2
        have hrec : get_kind_loop b (i + 1) xs = (k, xs) := Prod.ext h1 h2
        by_cases hxc : x = c
        · rw [get_kind_loop, if_pos hxc, get_kind_loop, if_neg hxb, if_neg hx0, hrec]
        · rw [get_kind_loop, if_neg hxc, if_neg hx0]
          simp only
          rw [get_kind_loop, if_neg hxb, if_neg hx0, ih (i + 1) k hrec]

/-- A second call for a byte that received a level returns the same level and changes
nothing. -/
theorem get_kind_loop_again (b : Nat) :
    ∀ (ks : List Nat) (i : Nat), (get_kind_loop b i ks).1 ≠ -1 →
      get_kind_loop b i (get_kind_loop b i ks).2 = get_kind_loop b i ks := by
  intro ks
  induction ks with
  | nil => intro i h; simp [get_kind_loop] at h
  | cons x xs ih =>
    intro i h
    by_cases hxb : x = b
    · rw [get_kind_loop, if_pos hxb, get_kind_loop, if_pos hxb]
    · by_cases hx0 : x = 0
      · rw [get_kind_loop, if_neg hxb, if_pos hx0, get_kind_loop, if_pos rfl]
      · rw [get_kind_loop, if_neg hxb, if_neg hx0] at h ⊢
        simp only at h ⊢
        rw [get_kind_loop, if_neg hxb, if_neg hx0, ih (i + 1) h]

/-- Slots that hold a byte keep it. -/
theorem get_kind_loop_keeps_slots (c : Nat) :
    ∀ (ks : List Nat) (i j x : Nat), ks.get? j = some x → x ≠ 0 →
      (get_kind_loop c i ks).2.get? j = some x := by
  intro ks
  induction ks with
  | nil => intro i j x h; simp at h
  | cons k ks ih =>
    intro i j x h hx
    by_cases hkc : k = c
    · rw [get_kind_loop, if_pos hkc]; exact h
    · by_cases hk0 : k = 0
      · rw [get_kind_loop, if_neg hkc, if_pos hk0]
        cases j with
        | zero =>
          simp only [List.get?_cons_zero, Option.some.injEq] at h
          exact absurd (h.symm.trans hk0) hx
        | succ j => simpa using h
      · rw [get_kind_loop, if_neg hkc, if_neg hk0]
        cases j with
        | zero => simpa using h
        | succ j =>
          simp only [List.get?_cons_succ] at h ⊢
          exact ih (i + 1) j x h hx

/-- A call changes nothing or fills one free slot with its byte. -/
theorem get_kind_loop_appends (c : Nat) :
    ∀ (ks : List Nat) (i : Nat), (get_kind_loop c i ks).2 = ks
      ∨ ∃ j, ks.get? j = some 0 ∧ (get_kind_loop c i ks).2 = ks.set j c := by
  intro ks
  induction ks with
  | nil => intro i; left; simp [get_kind_loop]
  | cons k ks ih =>
    intro i
    by_cases hkc : k = c
    · left; rw [get_kind_loop, if_pos hkc]
    · by_cases hk0 : k = 0
      · right
        refine ⟨0, by simp [hk0], ?_⟩
        rw [get_kind_loop, if_neg hkc, if_pos hk0]
        simp
      · rw [get_kind_loop, if_neg hkc, if_neg hk0]
        rcases ih (i + 1) with h | ⟨j, hj, hset⟩
        · left; simp only; rw [h]
        · right
          refine ⟨j + 1, by simpa using hj, ?_⟩
          simp only [List.set_cons_succ]
          rw [hset]

theorem kindcharsAfter_stable (b : Nat) (hb : b ≠ 0) (k : Int) (cs : List Nat) :
    ∀ ks : List Nat, get_kind ks b = (k, ks) →
      get_kind (kindcharsAfter ks cs) b = (k, kindcharsAfter ks cs) := by
  induction cs with
  | nil => intro ks h; exact h
  | cons c cs ih =>
    intro ks h
    rw [kindcharsAfter]
    exact ih _ (get_kind_loop_stable b c hb ks 0 k h)

/-- **C7** Level assignments are stable. For every table and every byte `c`: after
`get_kind` is called for `c`, every (non-zero) byte `b` that had a level `k` -- a call
for `b` returns `k` and leaves the table as it is -- still has the level `k`; the
slots that hold a byte keep it, and the new table is the old one or the old one with
`c` stored in one free slot. Hence a byte that was once classified at level `k >= 0`
is classified at level `k` on every later call, whatever calls come in between. -/
theorem level_assignments_stable (kindchars : List Nat) (c : Nat) :
    (∀ (b : Nat) (k : Int), b ≠ 0 → get_kind kindchars b = (k, kindchars) →
        get_kind (get_kind kindchars c).2 b = (k, (get_kind kindchars c).2))
      ∧ (∀ (j x : Nat), kindchars.get? j = some x → x ≠ 0 →
          (get_kind kindchars c).2.get? j = some x)
      ∧ ((get_kind kindchars c).2 = kindchars
          ∨ ∃ j, kindchars.get? j = some 0 ∧ (get_kind kindchars c).2 = kindchars.set j c)
      ∧ (∀ (k : Int) (cs : List Nat), c ≠ 0 → (get_kind kindchars c).1 = k → 0 ≤ k →
          (get_kind (kindcharsAfter (get_kind kindchars c).2 cs) c).1 = k) := by
  refine ⟨?_, ?_, ?_, ?_⟩
  · intro b k hb h
    exact get_kind_loop_stable b c hb kindchars 0 k h
  · intro j x h hx
    exact get_kind_loop_keeps_slots c kindchars 0 j x h hx
  · exact get_kind_loop_appends c kindchars 0
  · intro k cs hc hk h0
    have hagain : get_kind (get_kind kindchars c).2 c = (k, (get_kind kindchars c).2) := by
      have h := get_kind_loop_again c kindchars 0 (by
        have : (get_kind_loop c 0 kindchars).1 = k := hk
        omega)
      unfold get_kind
      exact Prod.ext (by rw [h]; exact hk) (by rw [h])
    rw [kindcharsAfter_stable c hc k cs _ hagain]

/-- Witness of C7: with `=` at level 0 and `-` at level 1, a call for `~` fills the
third slot, and `-` keeps level 1 then and after further calls. -/
theorem level_assignments_stable_witness :
    get_kind (get_kind [61, 45, 0, 0] 126).2 45 = (1, [61, 45, 126, 0])
      ∧ (get_kind (kindcharsAfter (get_kind [61, 0, 0, 0] 45).2 [126, 94, 35, 61]) 45).1
          = 1 :=
  ⟨by
      have h := (level_assignments_stable [61, 45, 0, 0] 126).1 45 1 (by decide)
        (by decide)
      exact h,
    (level_assignments_stable [61, 0, 0, 0] 45).2.2.2 1 [126, 94, 35, 61]
      (by decide) (by decide) (by decide)⟩

/-! ## The emitted record -/

/-- No record that `findRestTags` emits has a parent reference: `makeRestTag` passes
the record to the sink as `initTagEntry` made it, but for the line number. -/
theorem findRestTags_scopeIndex (stale : RestState) (doc : List (List Nat)) :
    ∀ e ∈ (findRestTags stale doc).corkQueue, e.scopeIndex = CORK_NIL := by
  induction doc using List.reverseRecOn with
  | nil => intro e he; simp [findRestTags, startScan] at he
  | append_singleton doc line ih =>
    intro e he
    rw [findRestTags_append] at he
    cases hc : confirms (findRestTags stale doc) line with
    | false =>
      rw [processLine_of_not_confirms _ line hc] at he
      exact ih e he
    | true =>
      rw [processLine_of_confirms _ line hc] at he
      rcases List.mem_append.mp he with hmem | hnew
      · exact ih e hmem
      · rw [List.mem_singleton.mp hnew]; rfl

/-- **C9** The emitted record carries its parent -- evaluated on the document "A",
"===", "B", "---": when "---" confirms B, `getNestingLevel` returns the level with
the handle 1 of A (the stack top left after popping), yet the record emitted for B,
like that for A, has no parent reference (`scopeIndex` is `CORK_NIL`). -/
theorem emitted_record_has_no_parent :
    (getNestingLevel
        (findRestTags ⟨[], [], [], [], 0⟩ [bytes "A", bytes "===", bytes "B"]).corkQueue 1
        (findRestTags ⟨[], [], [], [], 0⟩ [bytes "A", bytes "===", bytes "B"]).nestingLevels).1
        = some 1
      ∧ (findRestTags ⟨[], [], [], [], 0⟩
          [bytes "A", bytes "===", bytes "B", bytes "---"]).corkQueue
        = [⟨bytes "A", 0, 1, CORK_NIL⟩, ⟨bytes "B", 1, 3, CORK_NIL⟩] := by
  decide

/-- **C10** as stated fails: on the document "Title", "=====", "-----" the second
record has the title "Title" and the line number 2, and line 2 reads "=====". -/
theorem reported_line_counterexample :
    ¬ ∀ e ∈ (findRestTags ⟨[], [], [], [], 0⟩
          [bytes "Title", bytes "=====", bytes "-----"]).corkQueue,
        [bytes "Title", bytes "=====", bytes "-----"].get? (e.lineNumber - 1)
          = some e.name := by
  decide

/-- **C10** (amended) The reported line is the title's line when the confirming
underline does not directly follow another confirming line. The first line of a
document never confirms a heading; and when, after the lines `pre`, the line `prev`
does not confirm a heading and the next line `line` does, the record emitted has the
text of `prev` as its title and the 1-based number of `prev` as its line number, so
the input line at the reported number reads the record's title. -/
theorem reported_line_is_title_line (stale : RestState) (pre : List (List Nat))
    (prev line : List Nat) (hprev : confirms (findRestTags stale pre) prev = false)
    (hconf : confirms (findRestTags stale (pre ++ [prev])) line = true) :
    (∀ l : List Nat, confirms (findRestTags stale []) l = false)
      ∧ ∃ e, (findRestTags stale (pre ++ [prev] ++ [line])).corkQueue
            = (findRestTags stale (pre ++ [prev])).corkQueue ++ [e]
          ∧ e.name = prev ∧ e.lineNumber = pre.length + 1
          ∧ (pre ++ [prev] ++ [line]).get? (e.lineNumber - 1) = some e.name := by
  constructor
  · intro l
    simp [confirms, looksLikeUnderline, findRestTags, startScan, name_len, utf8_strlen,
      utf8_strlen_loop]
  · have hname : (findRestTags stale (pre ++ [prev])).name = prev := by
      have hne : (findRestTags stale (pre ++ [prev])).name ≠ [] := by
        simp only [confirms, Bool.and_eq_true] at hconf
        exact looksLikeUnderline_name_ne_nil _ _ hconf.1
      rw [findRestTags_append, processLine_of_not_confirms _ prev hprev] at hne ⊢
      simp only at hne ⊢
      split
      · rename_i hsp; rw [if_pos hsp] at hne; exact absurd rfl hne
      · rfl
    have hline : (findRestTags stale (pre ++ [prev])).lineNumber = pre.length + 1 := by
      rw [findRestTags_lineNumber]; simp
    refine ⟨headingRecord (findRestTags stale (pre ++ [prev]))
      (get_kind (findRestTags stale (pre ++ [prev])).kindchars (line.headD 0)).1,
      ?_, ?_, ?_, ?_⟩
    · rw [findRestTags_append stale (pre ++ [prev]) line,
        processLine_of_confirms _ line hconf]
    · rw [headingRecord, hname]
    · rw [headingRecord, hline]; simp
    · rw [headingRecord, hline, hname]
      have hidx : pre.length + 1 + 1 - 1 - 1 = pre.length := by omega
      simp only [hidx]
      rw [List.append_assoc, List.get?_eq_getElem?,
        List.getElem?_append_right (le_refl _), Nat.sub_self]
      rfl

/-- Witness of C10 (amended): "Title" at line 1, confirmed by "=====" at line 2. -/
theorem reported_line_is_title_line_witness :
    ∃ e, (findRestTags ⟨[], [], [], [], 0⟩ ([] ++ [bytes "Title"] ++ [bytes "====="])).corkQueue
          = (findRestTags ⟨[], [], [], [], 0⟩ ([] ++ [bytes "Title"])).corkQueue ++ [e]
        ∧ e.name = bytes "Title" ∧ e.lineNumber = ([] : List (List Nat)).length + 1
        ∧ (([] : List (List Nat)) ++ [bytes "Title"] ++ [bytes "====="]).get?
            (e.lineNumber - 1) = some e.name :=
  (reported_line_is_title_line ⟨[], [], [], [], 0⟩ [] (bytes "Title") (bytes "=====")
    (by decide) (by decide)).2

/-! ## Frame properties of one line -/

theorem looksLikeUnderline_iff (name line : List Nat) (hline : ∀ b ∈ line, b ≠ 0) :
    looksLikeUnderline name line = true ↔
      (name ≠ [] ∧ name_len name ≤ (line.length : Int)
        ∧ ispunct (line.headD 0) = true ∧ ∀ b ∈ line, b = line.headD 0) := by
  simp only [looksLikeUnderline, Bool.and_eq_true, decide_eq_true_eq,
    issame_iff line hline, ge_iff_le, gt_iff_lt, name_len_pos_iff]
  constructor
  · rintro ⟨⟨⟨h1, h2⟩, h3⟩, h4⟩
    exact ⟨h2, h1, h3, h4⟩
  · rintro ⟨h2, h1, h3, h4⟩
    exact ⟨⟨⟨h1, h2⟩, h3⟩, h4⟩

theorem confirms_false_of_not_looksLike (st : RestState) (line : List Nat)
    (h : looksLikeUnderline st.name line = false) : confirms st line = false := by
  simp [confirms, h]

/-- A line that fails the test of rest.c:175-176 changes the candidate and the line
counter only. -/
theorem processLine_of_not_looksLike (st : RestState) (line : List Nat)
    (h : looksLikeUnderline st.name line = false) :
    processLine st line =
      { kindchars := st.kindchars
        nestingLevels := st.nestingLevels
        corkQueue := st.corkQueue
        name := if isspace (line.headD 0) = true then [] else line
        lineNumber := st.lineNumber + 1 } := by
  rw [processLine_of_not_confirms st line (confirms_false_of_not_looksLike st line h), h]
  simp

/-- **C18** Rejected lines do not touch the classifier or the stack. For every scan
state and every line (a C string) that fails one of the underline tests -- the
candidate is empty, the line is shorter in bytes than the display length of the
candidate, its first byte is not punctuation, or it is not uniform -- processing the
line leaves the level table and the scope stack unchanged and emits nothing. In
particular the character of the too-short underline "===" under "Title", and that of
any line met with an empty candidate, is not assigned a level. -/
theorem rejected_line_frame (st : RestState) (line : List Nat)
    (hline : ∀ b ∈ line, b ≠ 0)
    (hrej : st.name = [] ∨ (line.length : Int) < name_len st.name
      ∨ ispunct (line.headD 0) = false ∨ ¬ ∀ b ∈ line, b = line.headD 0) :
    ((processLine st line).kindchars = st.kindchars
        ∧ (processLine st line).nestingLevels = st.nestingLevels
        ∧ (processLine st line).corkQueue = st.corkQueue)
      ∧ (st.name = bytes "Title" →
          (processLine st (bytes "===")).kindchars = st.kindchars)
      ∧ (st.name = [] → ∀ l : List Nat, (processLine st l).kindchars = st.kindchars) := by
  refine ⟨?_, ?_, ?_⟩
  · have hl : looksLikeUnderline st.name line = false := by
      by_contra hc
      have h := (looksLikeUnderline_iff st.name line hline).mp (by simpa using hc)
      rcases hrej with h1 | h1 | h1 | h1
      · exact h.1 h1
      · have := h.2.1; omega
      · rw [h.2.2.1] at h1; exact absurd h1 (by simp)
      · exact h1 h.2.2.2
    rw [processLine_of_not_looksLike st line hl]
    exact ⟨rfl, rfl, rfl⟩
  · intro hname
    have hl : looksLikeUnderline st.name (bytes "===") = false := by
      rw [hname]; decide
    rw [processLine_of_not_looksLike st _ hl]
  · intro hname l
    have hl : looksLikeUnderline st.name l = false := by
      rw [hname]
      simp [looksLikeUnderline, name_len, utf8_strlen, utf8_strlen_loop]
    rw [processLine_of_not_looksLike st _ hl]

/-- Witness of C18: the too-short underline "===" under the candidate "Title". -/
theorem rejected_line_frame_witness :
    (processLine ⟨[0, 0, 0, 0], [], [], bytes "Title", 1⟩ (bytes "===")).kindchars
        = [0, 0, 0, 0]
      ∧ (processLine ⟨[0, 0, 0, 0], [], [], bytes "Title", 1⟩ (bytes "===")).nestingLevels
        = []
      ∧ (processLine ⟨[0, 0, 0, 0], [], [], bytes "Title", 1⟩ (bytes "===")).corkQueue
        = [] :=
  (rejected_line_frame ⟨[0, 0, 0, 0], [], [], bytes "Title", 1⟩ (bytes "===")
    (by decide) (Or.inr (Or.inl (by decide)))).1

/-- **C20** A confirmed heading keeps its candidate. For every scan state, a line
that confirms a heading leaves the candidate as it was, so a further line that
confirms right after it emits another record with the same title; "Title", "=====",
"-----" emits "Title" twice, at the levels 0 and 1. -/
theorem confirmed_heading_keeps_candidate (stale st : RestState) (line : List Nat)
    (hconf : confirms st line = true) :
    (processLine st line).name = st.name
      ∧ (∀ line2 : List Nat, confirms (processLine st line) line2 = true →
          ∃ e, (processLine (processLine st line) line2).corkQueue
              = (processLine st line).corkQueue ++ [e] ∧ e.name = st.name)
      ∧ (findRestTags stale [bytes "Title", bytes "=====", bytes "-----"]).corkQueue.map
          (fun e => (e.name, e.kind)) = [(bytes "Title", 0), (bytes "Title", 1)] := by
  have hname : (processLine st line).name = st.name := by
    rw [processLine_of_confirms st line hconf]
  refine ⟨hname, ?_, ?_⟩
  · intro line2 h2
    refine ⟨headingRecord (processLine st line)
      (get_kind (processLine st line).kindchars (line2.headD 0)).1, ?_, ?_⟩
    · rw [processLine_of_confirms _ line2 h2]
    · rw [headingRecord, hname]
  · simp only [findRestTags, startScan_eq]; decide

/-- Witness of C20: "=====" confirms "Title" and the candidate is still "Title". -/
theorem confirmed_heading_keeps_candidate_witness :
    (processLine ⟨[0, 0, 0, 0], [], [], bytes "Title", 1⟩ (bytes "=====")).name
      = bytes "Title" :=
  (confirmed_heading_keeps_candidate ⟨[], [], [], [], 0⟩
    ⟨[0, 0, 0, 0], [], [], bytes "Title", 1⟩ (bytes "=====") (by decide)).1

/-! ## Reachability of the builder -/

/-- **C14** Empty titles never reach the builder. In the state `findRestTags` has
reached after the lines `doc`, a confirming line is handed to `makeRestTag` with a
non-empty `name`: so the branch that pushes `CORK_NIL` without a record is not
taken, the confirming line appends exactly one record to the sink and its handle
goes on top of the stack; any other line leaves the stack and the sink as they are;
every entry of the stack is a handle the sink returned (not `CORK_NIL`, and its
record exists). In particular the first line of a
document never confirms a heading and leaves the sink empty. -/
theorem empty_title_never_reaches_builder (stale : RestState) (doc : List (List Nat))
    (line : List Nat) :
    (confirms (findRestTags stale doc) line = true →
        0 < (findRestTags stale doc).name.length
        ∧ processLine (findRestTags stale doc) line =
            makeRestTag
              { findRestTags stale doc with
                lineNumber := (findRestTags stale doc).lineNumber + 1
                kindchars := (get_kind (findRestTags stale doc).kindchars (line.headD 0)).2 }
              (findRestTags stale doc).name
              (get_kind (findRestTags stale doc).kindchars (line.headD 0)).1
        ∧ (∃ e, (processLine (findRestTags stale doc) line).corkQueue
            = (findRestTags stale doc).corkQueue ++ [e])
        ∧ (processLine (findRestTags stale doc) line).nestingLevels.head?
            = some ((findRestTags stale doc).corkQueue.length + 1))
      ∧ (confirms (findRestTags stale doc) line = false →
          (processLine (findRestTags stale doc) line).nestingLevels
              = (findRestTags stale doc).nestingLevels
            ∧ (processLine (findRestTags stale doc) line).corkQueue
              = (findRestTags stale doc).corkQueue)
      ∧ (∀ h ∈ (findRestTags stale doc).nestingLevels,
          h ≠ CORK_NIL ∧ ∃ e, getEntryInCorkQueue (findRestTags stale doc).corkQueue h = some e)
      ∧ confirms (findRestTags stale []) line = false
      ∧ (findRestTags stale [line]).corkQueue = [] := by
  have hfirst : confirms (findRestTags stale []) line = false := by
    simp [confirms, looksLikeUnderline, findRestTags, startScan, name_len, utf8_strlen,
      utf8_strlen_loop]
  refine ⟨?_, ?_, ?_, hfirst, ?_⟩
  · intro hconf
    have hne : 0 < (findRestTags stale doc).name.length := by
      simp only [confirms, Bool.and_eq_true] at hconf
      exact List.length_pos.mpr (looksLikeUnderline_name_ne_nil _ _ hconf.1)
    refine ⟨hne, ?_, ?_, ?_⟩
    · simp only [confirms, Bool.and_eq_true, decide_eq_true_eq] at hconf
      simp only [processLine, hconf.1, if_true, ge_iff_le, hconf.2]
    · rw [processLine_of_confirms _ line hconf]; exact ⟨_, rfl⟩
    · rw [processLine_of_confirms _ line hconf]; rfl
  · intro hconf
    rw [processLine_of_not_confirms _ line hconf]
    exact ⟨rfl, rfl⟩
  · intro h hh
    obtain ⟨e, he⟩ := (StackInv_findRestTags stale doc).valid h hh
    exact ⟨fun h0 => by
      have := (getEntryInCorkQueue_le _ h e he).1
      rw [h0] at this
      simp [CORK_NIL] at this, e, he⟩
  · have h := findRestTags_append stale [] line
    simp only [List.nil_append] at h
    rw [h, processLine_of_not_confirms _ line hfirst]
    rfl

/-- Witness of C14: after "Title" the line "=====" calls the builder with a
non-empty name and one record is emitted. -/
theorem empty_title_never_reaches_builder_witness :
    0 < (findRestTags ⟨[], [], [], [], 0⟩ [bytes "Title"]).name.length
      ∧ ∃ e, (processLine (findRestTags ⟨[], [], [], [], 0⟩ [bytes "Title"])
            (bytes "=====")).corkQueue
          = (findRestTags ⟨[], [], [], [], 0⟩ [bytes "Title"]).corkQueue ++ [e] :=
  ⟨((empty_title_never_reaches_builder ⟨[], [], [], [], 0⟩ [bytes "Title"]
      (bytes "=====")).1 (by decide)).1,
    ((empty_title_never_reaches_builder ⟨[], [], [], [], 0⟩ [bytes "Title"]
      (bytes "=====")).1 (by decide)).2.2.1⟩

/-! ## Bounds on the display length -/

/-- One iteration of the loop of `utf8_strlen`: it fails, or it advances the cursor
by 1 to 4 bytes without passing the end and counts one. -/
theorem utf8_strlen_loop_step (buf : List Nat) (end_ fuel pos : Nat) (len : Int)
    (h : pos < end_) :
    utf8_strlen_loop buf end_ (fuel + 1) pos len = -1
      ∨ ∃ k, 1 ≤ k ∧ k ≤ 4 ∧ pos + k ≤ end_
          ∧ utf8_strlen_loop buf end_ (fuel + 1) pos len
            = utf8_strlen_loop buf end_ fuel (pos + k) (len + 1) := by
  rw [utf8_strlen_loop, if_pos h]
  simp only
  by_cases h1 : buf.getD pos 0 &&& 0x80 = 0
  · rw [if_pos h1]
    simp only
    by_cases hp : pos + 1 > end_
    · left; rw [if_pos hp]
    · right; exact ⟨1, by omega, by omega, by omega, by rw [if_neg hp]⟩
  · rw [if_neg h1]
    by_cases h2 : buf.getD pos 0 &&& 0xe0 = 0xc0
    · rw [if_pos h2]
      simp only
      by_cases hp : pos + 2 > end_
      · left; rw [if_pos hp]
      · right; exact ⟨2, by omega, by omega, by omega, by rw [if_neg hp]⟩
    · rw [if_neg h2]
      by_cases h3 : buf.getD pos 0 &&& 0xf0 = 0xe0
      · rw [if_pos h3]
        simp only
        by_cases hp : pos + 3 > end_
        · left; rw [if_pos hp]
        · right; exact ⟨3, by omega, by omega, by omega, by rw [if_neg hp]⟩
      · rw [if_neg h3]
        by_cases h4 : buf.getD pos 0 &&& 0xf8 = 0xf0
        · rw [if_pos h4]
          simp only
          by_cases hp : pos + 4 > end_
          · left; rw [if_pos hp]
          · right; exact ⟨4, by omega, by omega, by omega, by rw [if_neg hp]⟩
        · left; rw [if_neg h4]

/-- A count that the loop returns lies between a quarter of the bytes walked and
the number of bytes walked. -/
theorem utf8_strlen_loop_bounds (buf : List Nat) (end_ : Nat) :
    ∀ (fuel pos : Nat) (len : Int), pos ≤ end_ →
      utf8_strlen_loop buf end_ fuel pos len = -1
        ∨ (utf8_strlen_loop buf end_ fuel pos len - len ≤ ((end_ - pos : Nat) : Int)
            ∧ ((end_ - pos : Nat) : Int)
              ≤ 4 * (utf8_strlen_loop buf end_ fuel pos len - len)) := by
  intro fuel
  induction fuel with
  | zero => intro pos len _; left; simp [utf8_strlen_loop]
  | succ fuel ih =>
    intro pos len hpos
    by_cases h : pos < end_
    · rcases utf8_strlen_loop_step buf end_ fuel pos len h with h1 | ⟨k, hk1, hk4, hle, heq⟩
      · left; exact h1
      · rcases ih (pos + k) (len + 1) hle with h2 | ⟨h2, h3⟩
        · left; rw [heq]; exact h2
        · right
          rw [heq]
          constructor <;> omega
    · right
      rw [utf8_strlen_loop, if_neg h]
      have : end_ - pos = 0 := by omega
      rw [this]
      simp

/-- **C17** Display length is bounded by byte length. For every candidate of `n`
bytes the display length `d` that `findRestTags` computes (`utf8_strlen`, or `n` when
that is -1) satisfies `d <= n` and `n <= 4 * d`, and `d = 0` exactly when `n = 0`;
hence a line at least as long in bytes as the candidate passes the length test of
rest.c:175, and the test `name_len > 0` holds exactly for a non-empty candidate. -/
theorem display_length_bounds (name : List Nat) :
    name_len name ≤ (name.length : Int)
      ∧ (name.length : Int) ≤ 4 * name_len name
      ∧ (name_len name = 0 ↔ name.length = 0)
      ∧ (∀ line : List Nat, name.length ≤ line.length →
          (line.length : Int) ≥ name_len name)
      ∧ (name_len name > 0 ↔ name ≠ []) := by
  have hb : name_len name ≤ (name.length : Int) ∧ (name.length : Int) ≤ 4 * name_len name := by
    unfold name_len utf8_strlen
    simp only
    rcases utf8_strlen_loop_bounds name name.length (name.length + 1) 0 0 (Nat.zero_le _)
      with h | ⟨h1, h2⟩
    · rw [h]; simp; omega
    · by_cases hneg : utf8_strlen_loop name name.length (name.length + 1) 0 0 < 0
      · rw [if_pos hneg]; omega
      · rw [if_neg hneg]
        simp only [Nat.sub_zero, sub_zero] at h1 h2
        exact ⟨h1, h2⟩
  have hpos := name_len_pos_iff name
  refine ⟨hb.1, hb.2, ?_, ?_, ?_⟩
  · constructor
    · intro h0
      have := hb.2
      omega
    · intro hn
      have hnil : name = [] := List.length_eq_zero.mp hn
      have := hb.1
      have h2 : ¬ (0 < name_len name) := fun h => (hpos.mp h) hnil
      have := hb.2
      omega
  · intro line hlen
    have := hb.1
    omega
  · exact hpos

/-- Witness of C17: the title "Title" read as the line under itself. -/
theorem display_length_bounds_witness :
    ((bytes "Title").length : Int) ≥ name_len (bytes "Title") :=
  (display_length_bounds (bytes "Title")).2.2.2.1 (bytes "Title") (le_refl _)

/-! ## The outcome of a line -/

/-- **C11** as stated fails: with the candidate "Title", the line " x" does not
confirm a heading (the sink stays empty), is not blank or white-space only, and does
not become the candidate: the candidate is cleared. -/
theorem three_outcomes_counterexample :
    confirms ⟨[0, 0, 0, 0], [], [], bytes "Title", 1⟩ (bytes " x") = false
      ∧ (processLine ⟨[0, 0, 0, 0], [], [], bytes "Title", 1⟩ (bytes " x")).corkQueue = []
      ∧ (bytes " x").all isspace = false
      ∧ (processLine ⟨[0, 0, 0, 0], [], [], bytes "Title", 1⟩ (bytes " x")).name
          ≠ bytes " x"
      ∧ (processLine ⟨[0, 0, 0, 0], [], [], bytes "Title", 1⟩ (bytes " x")).name = [] := by
  decide

/-- **C11** (amended) Three outcomes per line, told apart by the first byte. For
every scan state and every line exactly one of these happens: (a) the line confirms
the candidate as a heading: one record is emitted and the candidate stays; (b) the
line does not confirm and its first byte is white space: nothing is emitted and the
candidate is cleared; (c) the line does not confirm and does not start with white
space: nothing is emitted and the line becomes the candidate with its full text (for
an empty line that is the empty candidate). A record is emitted only in case (a). -/
theorem three_outcomes (st : RestState) (line : List Nat) :
    ((confirms st line = true
          ∧ (∃ e, (processLine st line).corkQueue = st.corkQueue ++ [e])
          ∧ (processLine st line).name = st.name)
        ∨ (confirms st line = false ∧ isspace (line.headD 0) = true
          ∧ (processLine st line).corkQueue = st.corkQueue
          ∧ (processLine st line).name = [])
        ∨ (confirms st line = false ∧ isspace (line.headD 0) = false
          ∧ (processLine st line).corkQueue = st.corkQueue
          ∧ (processLine st line).name = line))
      ∧ ¬ ((∃ e, (processLine st line).corkQueue = st.corkQueue ++ [e])
          ∧ (processLine st line).corkQueue = st.corkQueue)
      ∧ (confirms st line = false → isspace (line.headD 0) = false →
          (processLine st line).name = line) := by
  refine ⟨?_, ?_, ?_⟩
  · cases hc : confirms st line with
    | true =>
      left
      rw [processLine_of_confirms st line hc]
      exact ⟨rfl, ⟨_, rfl⟩, rfl⟩
    | false =>
      right
      rw [processLine_of_not_confirms st line hc]
      cases hs : isspace (line.headD 0) with
      | true => left; simp
      | false => right; simp
  · rintro ⟨⟨e, he⟩, hq⟩
    rw [hq] at he
    have := congrArg List.length he
    simp at this
  · intro hc hs
    rw [processLine_of_not_confirms st line hc, hs]
    simp

/-- Witness of C11 (amended): with the candidate "Title", the line "text" becomes
the candidate. -/
theorem three_outcomes_witness :
    (processLine ⟨[0, 0, 0, 0], [], [], bytes "Title", 1⟩ (bytes "text")).name
      = bytes "text" :=
  (three_outcomes ⟨[0, 0, 0, 0], [], [], bytes "Title", 1⟩ (bytes "text")).2.2
    (by decide) (by decide)

/-! ## The titles of the records -/

theorem titleSource_append (stale : RestState) (doc : List (List Nat)) (line t : List Nat)
    (h : titleSource stale doc t) : titleSource stale (doc ++ [line]) t := by
  obtain ⟨k, hk, hc, hs⟩ := h
  have hlt : k < doc.length := by
    rw [List.get?_eq_getElem?] at hk
    exact (List.getElem?_eq_some.mp hk).1
  refine ⟨k, ?_, ?_, hs⟩
  · rw [List.get?_eq_getElem?, List.getElem?_append_left hlt, ← List.get?_eq_getElem?]
    exact hk
  · rw [List.take_append_of_le_length (le_of_lt hlt)]; exact hc

/-- The candidate is empty or the text of a line that did not confirm a heading when
it was read and does not start with white space; and so is the title of every
record. -/
theorem findRestTags_title_source (stale : RestState) (doc : List (List Nat)) :
    ((findRestTags stale doc).name = []
        ∨ titleSource stale doc (findRestTags stale doc).name)
      ∧ ∀ e ∈ (findRestTags stale doc).corkQueue,
          e.name ≠ [] ∧ titleSource stale doc e.name := by
  induction doc using List.reverseRecOn with
  | nil =>
    refine ⟨Or.inl rfl, ?_⟩
    intro e he
    simp [findRestTags, startScan] at he
  | append_singleton doc line ih =>
    obtain ⟨ihn, ihq⟩ := ih
    have hold : ∀ e ∈ (findRestTags stale doc).corkQueue,
        e.name ≠ [] ∧ titleSource stale (doc ++ [line]) e.name :=
      fun e he => ⟨(ihq e he).1, titleSource_append stale doc line _ (ihq e he).2⟩
    rw [findRestTags_append]
    cases hc : confirms (findRestTags stale doc) line with
    | true =>
      have hne : (findRestTags stale doc).name ≠ [] := by
        simp only [confirms, Bool.and_eq_true] at hc
        exact looksLikeUnderline_name_ne_nil _ _ hc.1
      have hnm : titleSource stale doc (findRestTags stale doc).name := by
        rcases ihn with h | h
        · exact absurd h hne
        · exact h
      rw [processLine_of_confirms _ line hc]
      refine ⟨Or.inr (titleSource_append stale doc line _ hnm), ?_⟩
      intro e he
      rcases List.mem_append.mp he with h | h
      · exact hold e h
      · rw [List.mem_singleton.mp h]
        exact ⟨hne, titleSource_append stale doc line _ hnm⟩
    | false =>
      rw [processLine_of_not_confirms _ line hc]
      refine ⟨?_, hold⟩
      cases hs : isspace (line.headD 0) with
      | true => left; simp
      | false =>
        right
        simp only [Bool.false_eq_true, if_false]
        refine ⟨doc.length, by simp, ?_, hs⟩
        rw [List.take_left]
        exact hc

/-- **C13** as stated fails: on the document "===", "===" the second line confirms
the first as a heading, so the emitted title "===" is a uniform run of one
punctuation character, produced by a punctuation-only line that follows another. -/
theorem title_never_underline_counterexample :
    ¬ ∀ e ∈ (findRestTags ⟨[], [], [], [], 0⟩ [bytes "===", bytes "==="]).corkQueue,
        e.name.all isspace = false
          ∧ ¬ (ispunct (e.name.headD 0) = true ∧ ∀ b ∈ e.name, b = e.name.headD 0) := by
  decide

/-- **C13** (amended) The title is a non-blank line that did not confirm a heading.
For every document, the title of every emitted heading record is the full text of a
line of the document that, when it was read, did not itself confirm a heading -- it
is not the underline line of a heading -- and that is not empty and does not start
with white space, hence is not blank or white-space only. (It can be a uniform run of
one punctuation character, but only as a line that was read without confirming.) -/
theorem title_is_unconfirmed_line (stale : RestState) (doc : List (List Nat))
    (e : tagEntryInfo) (he : e ∈ (findRestTags stale doc).corkQueue) :
    (∃ k, doc.get? k = some e.name
        ∧ confirms (findRestTags stale (doc.take k)) e.name = false)
      ∧ e.name ≠ [] ∧ isspace (e.name.headD 0) = false
      ∧ e.name.all isspace = false := by
  obtain ⟨h1, k, hk, hc, h3⟩ := (findRestTags_title_source stale doc).2 e he
  refine ⟨⟨k, hk, hc⟩, h1, h3, ?_⟩
  cases hn : e.name with
  | nil => exact absurd hn h1
  | cons a r =>
    rw [hn] at h3
    simp only [List.headD_cons] at h3
    simp [h3]

/-- Witness of C13 (amended): the record of "Title", confirmed by "=====". -/
theorem title_is_unconfirmed_line_witness :
    (∃ k, [bytes "Title", bytes "====="].get? k = some (bytes "Title")
        ∧ confirms (findRestTags ⟨[], [], [], [], 0⟩
            ([bytes "Title", bytes "====="].take k)) (bytes "Title") = false)
      ∧ bytes "Title" ≠ [] ∧ isspace ((bytes "Title").headD 0) = false
      ∧ (bytes "Title").all isspace = false :=
  title_is_unconfirmed_line ⟨[], [], [], [], 0⟩ [bytes "Title", bytes "====="]
    ⟨bytes "Title", 0, 1, 0⟩ (by decide)

/-! ## The acceptance condition of `utf8_strlen` -/

set_option maxRecDepth 100000 in
/-- The masks of rest.c:136-142 test the four leading-bit patterns. -/
theorem lead_masks : ∀ b < 256,
    (b &&& 0x80 = 0 ↔ b / 128 = 0) ∧ (b &&& 0xe0 = 0xc0 ↔ b / 32 = 6)
      ∧ (b &&& 0xf0 = 0xe0 ↔ b / 16 = 14) ∧ (b &&& 0xf8 = 0xf0 ↔ b / 8 = 30) := by
  decide

/-- The branch of rest.c:136-145 taken for a byte is the one of its run length. -/
theorem lead_class (b : Nat) (hb : b < 256) (pos : Nat) :
    (if b &&& 0x80 = 0 then some (pos + 1)
      else if b &&& 0xe0 = 0xc0 then some (pos + 2)
      else if b &&& 0xf0 = 0xe0 then some (pos + 3)
      else if b &&& 0xf8 = 0xf0 then some (pos + 4)
      else none) = (runLength b).map (fun k => pos + k) := by
  obtain ⟨h1, h2, h3, h4⟩ := lead_masks b hb
  simp only [h1, h2, h3, h4, runLength]
  split_ifs <;> rfl

theorem runLength_pos (b k : Nat) (h : runLength b = some k) : 1 ≤ k ∧ k ≤ 4 := by
  unfold runLength at h
  split_ifs at h <;> simp at h <;> omega

theorem getD_append_length (pre rest : List Nat) :
    (pre ++ rest).getD pre.length 0 = rest.headD 0 := by
  rw [List.getD_eq_getElem?_getD, List.getElem?_append_right (le_refl _), Nat.sub_self]
  cases rest <;> simp

/-- The walk passes over a run in one iteration. -/
theorem utf8_strlen_loop_run (pre r tail : List Nat) (fuel : Nat) (len : Int)
    (hr : isRun r = true) (hlead : r.headD 0 < 256) :
    utf8_strlen_loop (pre ++ (r ++ tail)) (pre ++ (r ++ tail)).length (fuel + 1)
        pre.length len
      = utf8_strlen_loop (pre ++ (r ++ tail)) (pre ++ (r ++ tail)).length fuel
          (pre.length + r.length) (len + 1) := by
  cases r with
  | nil => simp [isRun] at hr
  | cons b t =>
    simp only [isRun, decide_eq_true_eq] at hr
    simp only [List.headD_cons] at hlead
    have hlt : pre.length < (pre ++ (b :: t ++ tail)).length := by simp
    have hb : (pre ++ (b :: t ++ tail)).getD pre.length 0 = b := by
      rw [getD_append_length]; rfl
    rw [utf8_strlen_loop, if_pos hlt]
    simp only
    rw [hb, lead_class b hlead pre.length, hr]
    simp only [Option.map_some']
    rw [if_neg (by simp)]

/-- The walk fails where the buffer is cut short. -/
theorem utf8_strlen_loop_cutShort (pre rest : List Nat) (fuel : Nat) (len : Int)
    (hc : cutShort rest = true) (hlead : rest.headD 0 < 256) :
    utf8_strlen_loop (pre ++ rest) (pre ++ rest).length (fuel + 1) pre.length len = -1 := by
  cases rest with
  | nil => simp [cutShort] at hc
  | cons b t =>
    simp only [List.headD_cons] at hlead
    have hlt : pre.length < (pre ++ b :: t).length := by simp
    have hb : (pre ++ b :: t).getD pre.length 0 = b := by
      rw [getD_append_length]; rfl
    rw [utf8_strlen_loop, if_pos hlt]
    simp only
    rw [hb, lead_class b hlead pre.length]
    simp only [cutShort] at hc
    cases hk : runLength b with
    | none => rfl
    | some k =>
      rw [hk] at hc
      simp only [decide_eq_true_eq, List.length_cons] at hc
      simp only [Option.map_some']
      rw [if_pos (by simp; omega)]

/-- The walk over a sequence of runs takes one iteration for each. -/
theorem utf8_strlen_loop_runs (tail : List Nat) (fuel : Nat) :
    ∀ (runs : List (List Nat)) (pre : List Nat) (len : Int),
      (∀ r ∈ runs, isRun r = true ∧ r.headD 0 < 256) →
      utf8_strlen_loop (pre ++ (runs.flatten ++ tail)) (pre ++ (runs.flatten ++ tail)).length
          (runs.length + fuel) pre.length len
        = utf8_strlen_loop (pre ++ (runs.flatten ++ tail))
            (pre ++ (runs.flatten ++ tail)).length fuel
            (pre ++ runs.flatten).length (len + runs.length) := by
  intro runs
  induction runs with
  | nil => intro pre len _; simp
  | cons r rs ih =>
    intro pre len hruns
    obtain ⟨hr, hlead⟩ := hruns r (by simp)
    have hbuf : pre ++ ((r :: rs).flatten ++ tail) = pre ++ (r ++ (rs.flatten ++ tail)) := by
      simp
    have hbuf2 : pre ++ (r ++ (rs.flatten ++ tail)) = (pre ++ r) ++ (rs.flatten ++ tail) := by
      simp
    have hfuel : (r :: rs).length + fuel = (rs.length + fuel) + 1 := by
      simp only [List.length_cons]; omega
    rw [hbuf, hfuel, utf8_strlen_loop_run pre r (rs.flatten ++ tail) _ len hr hlead,
      hbuf2, ← List.length_append,
      ih (pre ++ r) (len + 1) (fun x hx => hruns x (List.mem_cons_of_mem _ hx))]
    congr 1
    · simp
    · simp only [List.length_cons]; push_cast; ring

theorem runs_length_le (runs : List (List Nat)) (h : ∀ r ∈ runs, isRun r = true) :
    runs.length ≤ runs.flatten.length := by
  induction runs with
  | nil => simp
  | cons r rs ih =>
    have hr := h r (by simp)
    have hpos : 1 ≤ r.length := by
      cases r with
      | nil => simp [isRun] at hr
      | cons b t => simp
    have := ih (fun x hx => h x (List.mem_cons_of_mem _ hx))
    simp only [List.flatten_cons, List.length_append, List.length_cons]
    omega

/-- A buffer that is tiled by runs is accepted, with the number of runs. -/
theorem utf8_strlen_of_runs (runs : List (List Nat))
    (h : ∀ r ∈ runs, isRun r = true ∧ r.headD 0 < 256) :
    utf8_strlen runs.flatten runs.flatten.length = (runs.length : Int) := by
  have hle := runs_length_le runs (fun r hr => (h r hr).1)
  obtain ⟨f, hf⟩ : ∃ f, runs.flatten.length + 1 = runs.length + (f + 1) :=
    ⟨runs.flatten.length - runs.length, by omega⟩
  have := utf8_strlen_loop_runs [] (f + 1) runs [] 0 h
  simp only [List.append_nil, List.nil_append, List.length_nil, zero_add] at this
  unfold utf8_strlen
  rw [hf, this, utf8_strlen_loop, if_neg (lt_irrefl _)]

/-- A buffer in which the walk meets a cut-short rest is rejected. -/
theorem utf8_strlen_of_cutShort (runs : List (List Nat)) (rest : List Nat)
    (h : ∀ r ∈ runs, isRun r = true ∧ r.headD 0 < 256) (hc : cutShort rest = true)
    (hlead : rest.headD 0 < 256) :
    utf8_strlen (runs.flatten ++ rest) (runs.flatten ++ rest).length = -1 := by
  have hle := runs_length_le runs (fun r hr => (h r hr).1)
  obtain ⟨f, hf⟩ : ∃ f, (runs.flatten ++ rest).length + 1 = runs.length + (f + 1) :=
    ⟨(runs.flatten ++ rest).length - runs.length, by
      simp only [List.length_append]; omega⟩
  have := utf8_strlen_loop_runs rest (f + 1) runs [] 0 h
  simp only [List.nil_append, List.length_nil] at this
  unfold utf8_strlen
  rw [hf, this]
  exact utf8_strlen_loop_cutShort runs.flatten rest f _ hc hlead

/-- Every buffer is tiled by runs, or by runs up to a cut-short rest. -/
theorem runs_or_cutShort :
    ∀ (n : Nat) (buf : List Nat), buf.length ≤ n →
      (∃ runs : List (List Nat), buf = runs.flatten ∧ ∀ r ∈ runs, isRun r = true)
        ∨ ∃ (runs : List (List Nat)) (rest : List Nat),
            buf = runs.flatten ++ rest ∧ (∀ r ∈ runs, isRun r = true)
              ∧ cutShort rest = true := by
  intro n
  induction n with
  | zero =>
    intro buf hlen
    left
    have : buf = [] := List.length_eq_zero.mp (by omega)
    exact ⟨[], by simp [this], by simp⟩
  | succ n ih =>
    intro buf hlen
    cases buf with
    | nil => left; exact ⟨[], by simp, by simp⟩
    | cons b t =>
      cases hk : runLength b with
      | none => right; exact ⟨[], b :: t, by simp, by simp, by simp [cutShort, hk]⟩
      | some k =>
        obtain ⟨hk1, hk4⟩ := runLength_pos b k hk
        by_cases hshort : (b :: t).length < k
        · right
          exact ⟨[], b :: t, by simp, by simp, by
            simp only [cutShort, hk, decide_eq_true_eq]; exact hshort⟩
        · have hrun : isRun ((b :: t).take k) = true := by
            obtain ⟨k', rfl⟩ : ∃ k', k = k' + 1 := ⟨k - 1, by omega⟩
            simp only [List.take_succ_cons, isRun, decide_eq_true_eq, hk,
              List.length_cons, List.length_take]
            simp only [List.length_cons] at hshort
            congr 1
            omega
          have hdrop : ((b :: t).drop k).length ≤ n := by
            simp only [List.length_drop, List.length_cons] at hlen ⊢
            omega
          have hsplit : b :: t = (b :: t).take k ++ (b :: t).drop k :=
            (List.take_append_drop k (b :: t)).symm
          rcases ih ((b :: t).drop k) hdrop with ⟨runs, hr, hall⟩ | ⟨runs, rest, hr, hall, hc⟩
          · left
            refine ⟨(b :: t).take k :: runs, ?_, ?_⟩
            · rw [List.flatten_cons, ← hr]; exact hsplit
            · intro r hrm
              rcases List.mem_cons.mp hrm with h | h
              · rw [h]; exact hrun
              · exact hall r h
          · right
            refine ⟨(b :: t).take k :: runs, rest, ?_, ?_, hc⟩
            · rw [List.flatten_cons, List.append_assoc, ← hr]; exact hsplit
            · intro r hrm
              rcases List.mem_cons.mp hrm with h | h
              · rw [h]; exact hrun
              · exact hall r h

theorem headD_lt_of_forall (l : List Nat) (h : ∀ b ∈ l, b < 256) : l.headD 0 < 256 := by
  cases l with
  | nil => simp
  | cons a r => exact h a (by simp)

theorem isRun_congr (r r' : List Nat) (hh : r'.head? = r.head?) (hl : r'.length = r.length) :
    isRun r' = isRun r := by
  cases r with
  | nil =>
    have : r' = [] := List.length_eq_zero.mp (by simpa using hl)
    rw [this]
  | cons b t =>
    cases r' with
    | nil => simp at hl
    | cons b' t' =>
      simp only [List.head?_cons, Option.some.injEq] at hh
      subst hh
      simp only [isRun]
      rw [hl]

theorem cutShort_congr (r r' : List Nat) (hh : r'.head? = r.head?) (hl : r'.length = r.length) :
    cutShort r' = cutShort r := by
  cases r with
  | nil =>
    have : r' = [] := List.length_eq_zero.mp (by simpa using hl)
    rw [this]
  | cons b t =>
    cases r' with
    | nil => simp at hl
    | cons b' t' =>
      simp only [List.head?_cons, Option.some.injEq] at hh
      subst hh
      simp only [cutShort]
      rw [hl]

theorem headD_congr (r r' : List Nat) (hh : r'.head? = r.head?) : r'.headD 0 = r.headD 0 := by
  cases r <;> cases r' <;> simp_all

theorem forall₂_runs (runs runs' : List (List Nat))
    (hf : List.Forall₂ (fun r r' => r'.head? = r.head? ∧ r'.length = r.length) runs runs')
    (hall : ∀ r ∈ runs, isRun r = true ∧ r.headD 0 < 256) :
    (∀ r' ∈ runs', isRun r' = true ∧ r'.headD 0 < 256) ∧ runs'.length = runs.length := by
  induction hf with
  | nil => simp
  | cons hab _ ih =>
    rename_i a b l₁ l₂ _
    obtain ⟨ih1, ih2⟩ := ih (fun r hr => hall r (List.mem_cons_of_mem _ hr))
    obtain ⟨ha1, ha2⟩ := hall a (by simp)
    refine ⟨?_, by simp [ih2]⟩
    intro r' hr'
    rcases List.mem_cons.mp hr' with h | h
    · rw [h, isRun_congr a b hab.1 hab.2, headD_congr a b hab.1]
      exact ⟨ha1, ha2⟩
    · exact ih1 r' h

/-- **C16** Exact acceptance condition of `utf8_strlen`. For every byte buffer, with
the run lengths 1/2/3/4 chosen by the leading-bit patterns 0xxxxxxx / 110xxxxx /
1110xxxx / 11110xxx: `utf8_strlen` returns -1 exactly when, after some runs from the
start, a run starts with a byte that has none of the four patterns or extends past
the end of the buffer; it returns `n >= 0` exactly when `n` runs tile the buffer; one
of the two is the case; and the bytes inside a run are not inspected: a buffer that
has the same lengths and first bytes of the runs (and of the cut-short rest) gets the
same result whatever its other bytes are. -/
theorem utf8_strlen_acceptance (buf : List Nat) (hbytes : ∀ b ∈ buf, b < 256) :
    (utf8_strlen buf buf.length = -1 ↔
        ∃ (runs : List (List Nat)) (rest : List Nat), buf = runs.flatten ++ rest
          ∧ (∀ r ∈ runs, isRun r = true) ∧ cutShort rest = true)
      ∧ (∀ n : Nat, utf8_strlen buf buf.length = (n : Int) ↔
          ∃ runs : List (List Nat), buf = runs.flatten ∧ (∀ r ∈ runs, isRun r = true)
            ∧ runs.length = n)
      ∧ (utf8_strlen buf buf.length = -1 ∨ ∃ n : Nat, utf8_strlen buf buf.length = (n : Int))
      ∧ (∀ (runs runs' : List (List Nat)) (rest rest' : List Nat),
          buf = runs.flatten ++ rest → (∀ r ∈ runs, isRun r = true) →
          (rest = [] ∨ cutShort rest = true) →
          List.Forall₂ (fun r r' => r'.head? = r.head? ∧ r'.length = r.length) runs runs' →
          rest'.head? = rest.head? → rest'.length = rest.length →
          utf8_strlen (runs'.flatten ++ rest') (runs'.flatten ++ rest').length
            = utf8_strlen buf buf.length) := by
  have hleads : ∀ (runs : List (List Nat)) (rest : List Nat), buf = runs.flatten ++ rest →
      (∀ r ∈ runs, isRun r = true) →
      (∀ r ∈ runs, isRun r = true ∧ r.headD 0 < 256) ∧ rest.headD 0 < 256 := by
    intro runs rest hbuf hall
    refine ⟨fun r hr => ⟨hall r hr, headD_lt_of_forall r (fun b hb => hbytes b ?_)⟩,
      headD_lt_of_forall rest (fun b hb => hbytes b ?_)⟩
    · rw [hbuf]
      exact List.mem_append_left _ (List.mem_flatten.mpr ⟨r, hr, hb⟩)
    · rw [hbuf]
      exact List.mem_append_right _ hb
  have htiled : ∀ runs : List (List Nat), buf = runs.flatten → (∀ r ∈ runs, isRun r = true) →
      utf8_strlen buf buf.length = (runs.length : Int) := by
    intro runs hbuf hall
    have h := (hleads runs [] (by simpa using hbuf) hall).1
    rw [hbuf]
    exact utf8_strlen_of_runs runs h
  have hcut : ∀ (runs : List (List Nat)) (rest : List Nat), buf = runs.flatten ++ rest →
      (∀ r ∈ runs, isRun r = true) → cutShort rest = true →
      utf8_strlen buf buf.length = -1 := by
    intro runs rest hbuf hall hc
    obtain ⟨h1, h2⟩ := hleads runs rest hbuf hall
    rw [hbuf]
    exact utf8_strlen_of_cutShort runs rest h1 hc h2
  have htotal := runs_or_cutShort buf.length buf (le_refl _)
  refine ⟨⟨?_, ?_⟩, ?_, ?_, ?_⟩
  · intro hneg
    rcases htotal with ⟨runs, hbuf, hall⟩ | h
    · have := htiled runs hbuf hall
      omega
    · exact h
  · rintro ⟨runs, rest, hbuf, hall, hc⟩
    exact hcut runs rest hbuf hall hc
  · intro n
    constructor
    · intro hn
      rcases htotal with ⟨runs, hbuf, hall⟩ | ⟨runs, rest, hbuf, hall, hc⟩
      · refine ⟨runs, hbuf, hall, ?_⟩
        have := htiled runs hbuf hall
        omega
      · have := hcut runs rest hbuf hall hc
        omega
    · rintro ⟨runs, hbuf, hall, hlen⟩
      rw [htiled runs hbuf hall, hlen]
  · rcases htotal with ⟨runs, hbuf, hall⟩ | ⟨runs, rest, hbuf, hall, hc⟩
    · right; exact ⟨runs.length, htiled runs hbuf hall⟩
    · left; exact hcut runs rest hbuf hall hc
  · intro runs runs' rest rest' hbuf hall hrest hf hh hl
    obtain ⟨h1, h2⟩ := hleads runs rest hbuf hall
    obtain ⟨hall', hlen'⟩ := forall₂_runs runs runs' hf h1
    rcases hrest with hnil | hc
    · have hnil' : rest' = [] := List.length_eq_zero.mp (by rw [hl, hnil]; rfl)
      rw [hnil', List.append_nil, utf8_strlen_of_runs runs' hall',
        htiled runs (by rw [hbuf, hnil, List.append_nil]) hall, hlen']
    · have hc' : cutShort rest' = true := by rw [cutShort_congr rest rest' hh hl]; exact hc
      have h2' : rest'.headD 0 < 256 := by rw [headD_congr rest rest' hh]; exact h2
      rw [utf8_strlen_of_cutShort runs' rest' hall' hc' h2', hcut runs rest hbuf hall hc]

/-- Witness of C16: the bytes C3 A9 41 are tiled by the two runs C3 A9 and 41. -/
theorem utf8_strlen_acceptance_witness :
    utf8_strlen [0xC3, 0xA9, 0x41] [0xC3, 0xA9, 0x41].length = ((2 : Nat) : Int)
      ∧ utf8_strlen [0x41, 0xE2, 0x82] [0x41, 0xE2, 0x82].length = -1 :=
  ⟨((utf8_strlen_acceptance [0xC3, 0xA9, 0x41] (by decide)).2.1 2).mpr
      ⟨[[0xC3, 0xA9], [0x41]], by decide, by decide, by decide⟩,
    (utf8_strlen_acceptance [0x41, 0xE2, 0x82] (by decide)).1.mpr
      ⟨[[0x41]], [0xE2, 0x82], by decide, by decide, by decide⟩⟩

/-! ## Candidates that are not UTF-8 -/

/-- The encoding of code points is accepted by `utf8_strlen`. -/
theorem utf8_strlen_encode_nonneg (cps : List Nat) (hcps : ∀ cp ∈ cps, cp < 0x110000) :
    utf8_strlen (utf8_encode cps) (utf8_encode cps).length = (cps.length : Int) := by
  have := utf8_strlen_loop_encode cps [] ((utf8_encode cps).length + 1) 0 hcps
    (by have := utf8_encode_length_ge cps; omega)
  simpa [utf8_strlen] using this

/-- **C12** as stated fails: the two bytes C3 41 (a two-byte lead followed by the
letter A) are not well-formed UTF-8, and their display length is 1, not the byte
length 2. -/
theorem invalid_encoding_counterexample :
    ¬ WellFormedUtf8 [0xC3, 0x41]
      ∧ name_len [0xC3, 0x41] = 1
      ∧ name_len [0xC3, 0x41] ≠ (([0xC3, 0x41] : List Nat).length : Int) := by
  refine ⟨?_, by decide, by decide⟩
  rintro ⟨cps, _, henc⟩
  cases cps with
  | nil => simp [utf8_encode] at henc
  | cons cp rest =>
    simp only [utf8_encode, utf8_encode_cp] at henc
    split_ifs at henc <;> simp at henc <;> omega

/-- **C12** (amended) A candidate that fails the quick check falls back to byte
length. For every candidate byte string in which the walk of `utf8_strlen` -- runs of
1/2/3/4 bytes chosen by the leading-bit patterns -- meets, after some runs, a byte
with none of the four patterns at the start of a run, or a run that extends past the
end: `utf8_strlen` returns -1, the display length is the byte length of the
candidate, and the candidate is indeed not well-formed UTF-8. -/
theorem invalid_lead_falls_back (name : List Nat) (hbytes : ∀ b ∈ name, b < 256)
    (runs : List (List Nat)) (rest : List Nat) (hname : name = runs.flatten ++ rest)
    (hruns : ∀ r ∈ runs, isRun r = true) (hcut : cutShort rest = true) :
    utf8_strlen name name.length = -1
      ∧ name_len name = (name.length : Int)
      ∧ ¬ WellFormedUtf8 name := by
  have hneg : utf8_strlen name name.length = -1 := by
    have h1 : ∀ r ∈ runs, isRun r = true ∧ r.headD 0 < 256 := by
      intro r hr
      refine ⟨hruns r hr, headD_lt_of_forall r (fun b hb => hbytes b ?_)⟩
      rw [hname]
      exact List.mem_append_left _ (List.mem_flatten.mpr ⟨r, hr, hb⟩)
    have h2 : rest.headD 0 < 256 :=
      headD_lt_of_forall rest (fun b hb => hbytes b (by
        rw [hname]; exact List.mem_append_right _ hb))
    rw [hname]
    exact utf8_strlen_of_cutShort runs rest h1 hcut h2
  refine ⟨hneg, ?_, ?_⟩
  · unfold name_len
    simp only
    rw [hneg, if_pos (by decide)]
  · rintro ⟨cps, hv, henc⟩
    have := utf8_strlen_encode_nonneg cps (fun cp hcp => (hv cp hcp).1)
    rw [henc, hneg] at this
    omega

/-- Witness of C12 (amended): "A" followed by the first two bytes E2 82 of a
three-byte sequence has the display length 3. -/
theorem invalid_lead_falls_back_witness :
    utf8_strlen [0x41, 0xE2, 0x82] ([0x41, 0xE2, 0x82] : List Nat).length = -1
      ∧ name_len [0x41, 0xE2, 0x82] = (([0x41, 0xE2, 0x82] : List Nat).length : Int)
      ∧ ¬ WellFormedUtf8 [0x41, 0xE2, 0x82] :=
  invalid_lead_falls_back [0x41, 0xE2, 0x82] (by decide) [[0x41]] [0xE2, 0x82]
    (by decide) (by decide) (by decide)

/-! ## Levels appear in order -/

theorem ispunct_ne_zero (c : Nat) (h : ispunct c = true) : c ≠ 0 := by
  simp only [ispunct, Bool.or_eq_true, Bool.and_eq_true, decide_eq_true_eq] at h
  omega

/-- The three cases of a call of `get_kind` on a table of assigned bytes `d`. -/
theorem get_kind_assigned (d : List Nat) (c : Nat) (hd : ∀ x ∈ d, x ≠ 0)
    (hlen : d.length ≤ SECTION_COUNT) (hc : c ≠ 0) :
    (c ∈ d ∧ get_kind (d ++ List.replicate (SECTION_COUNT - d.length) 0) c
        = (((d.indexOf c : Nat) : Int), d ++ List.replicate (SECTION_COUNT - d.length) 0))
      ∨ (c ∉ d ∧ d.length < SECTION_COUNT
          ∧ get_kind (d ++ List.replicate (SECTION_COUNT - d.length) 0) c
            = (((d.length : Nat) : Int),
                (d ++ [c]) ++ List.replicate (SECTION_COUNT - (d ++ [c]).length) 0))
      ∨ (c ∉ d ∧ d.length = SECTION_COUNT
          ∧ get_kind (d ++ List.replicate (SECTION_COUNT - d.length) 0) c
            = (-1, d ++ List.replicate (SECTION_COUNT - d.length) 0)) := by
  unfold get_kind
  by_cases hin : c ∈ d
  · left
    refine ⟨hin, ?_⟩
    rw [get_kind_loop_mem c _ d 0 hin hd]
    simp
  · by_cases hfull : d.length = SECTION_COUNT
    · right; right
      refine ⟨hin, hfull, ?_⟩
      rw [hfull, Nat.sub_self, List.replicate_zero, List.append_nil,
        get_kind_loop_full c d 0 hin hd]
    · right; left
      have hlt : d.length < SECTION_COUNT := by omega
      refine ⟨hin, hlt, ?_⟩
      obtain ⟨m, hm⟩ : ∃ m, SECTION_COUNT - d.length = m + 1 :=
        ⟨SECTION_COUNT - d.length - 1, by omega⟩
      have hm2 : SECTION_COUNT - (d ++ [c]).length = m := by
        simp only [List.length_append, List.length_singleton]; omega
      rw [hm, get_kind_loop_fresh c m d 0 hin hd hc, hm2]
      simp

theorem assignedCount_assigned (d : List Nat) (n : Nat) (hd : ∀ x ∈ d, x ≠ 0) :
    assignedCount (d ++ List.replicate n 0) = d.length := by
  unfold assignedCount
  rw [List.filter_append]
  have h1 : d.filter (fun c => decide (c ≠ 0)) = d :=
    List.filter_eq_self.mpr (fun x hx => by simpa using hd x hx)
  have h2 : (List.replicate n 0).filter (fun c => decide (c ≠ 0)) = [] :=
    List.filter_eq_nil_iff.mpr (fun x hx => by
      have := List.eq_of_mem_replicate hx
      simp [this])
  rw [h1, h2]
  simp

theorem levelsInOrder_append (queue : List tagEntryInfo) (e : tagEntryInfo)
    (hq : levelsInOrder queue)
    (he : ∀ j : Int, 0 ≤ j → j < e.kind → ∃ e' ∈ queue, e'.kind = j) :
    levelsInOrder (queue ++ [e]) := by
  intro i x hx j hj0 hjk
  by_cases hi : i < queue.length
  · rw [List.get?_eq_getElem?, List.getElem?_append_left hi, ← List.get?_eq_getElem?] at hx
    obtain ⟨i', e', hlt, he', hk⟩ := hq i x hx j hj0 hjk
    refine ⟨i', e', hlt, ?_, hk⟩
    rw [List.get?_eq_getElem?, List.getElem?_append_left (by omega), ← List.get?_eq_getElem?]
    exact he'
  · have hi2 : i = queue.length := by
      rw [List.get?_eq_getElem?] at hx
      have := (List.getElem?_eq_some.mp hx).1
      simp only [List.length_append, List.length_singleton] at this
      omega
    subst hi2
    have hxe : x = e := by
      rw [List.get?_eq_getElem?, List.getElem?_append_right (le_refl _), Nat.sub_self] at hx
      simpa using hx.symm
    subst hxe
    obtain ⟨e', hmem, hk⟩ := he j hj0 hjk
    obtain ⟨i', hi', hget⟩ := List.getElem_of_mem hmem
    refine ⟨i', e', hi', ?_, hk⟩
    rw [List.get?_eq_getElem?, List.getElem?_append_left hi', List.getElem?_eq_getElem hi',
      hget]

/-- One line of the scan keeps the level invariant. -/
theorem LevelsInv_processLine (st : RestState) (line : List Nat)
    (inv : LevelsInv st.kindchars st.corkQueue) :
    LevelsInv (processLine st line).kindchars (processLine st line).corkQueue := by
  obtain ⟨d, hkc, hlen, hd, hset, hord⟩ := inv
  by_cases hl : looksLikeUnderline st.name line = true
  · have hc : line.headD 0 ≠ 0 := by
      apply ispunct_ne_zero
      simp only [looksLikeUnderline, Bool.and_eq_true] at hl
      exact hl.1.2
    rcases get_kind_assigned d (line.headD 0) hd hlen hc with
      ⟨hin, hres⟩ | ⟨hin, hlt, hres⟩ | ⟨hin, hfull, hres⟩
    · have hidx : d.indexOf (line.headD 0) < d.length := List.indexOf_lt_length.mpr hin
      have hconf : confirms st line = true := by
        simp only [confirms, hl, hkc, hres, Bool.true_and, decide_eq_true_eq]
        omega
      rw [processLine_of_confirms st line hconf]
      simp only [hkc, hres]
      refine ⟨d, rfl, hlen, hd, ?_, ?_⟩
      · intro k
        constructor
        · rintro ⟨e, he, hk⟩
          rcases List.mem_append.mp he with h | h
          · exact (hset k).mp ⟨e, h, hk⟩
          · rw [List.mem_singleton.mp h] at hk
            simp only [headingRecord] at hk
            omega
        · intro hk
          obtain ⟨e, he, hke⟩ := (hset k).mpr hk
          exact ⟨e, List.mem_append_left _ he, hke⟩
      · apply levelsInOrder_append _ _ hord
        intro j hj0 hjk
        simp only [headingRecord] at hjk
        exact (hset j).mpr ⟨hj0, by omega⟩
    · have hconf : confirms st line = true := by
        simp only [confirms, hl, hkc, hres, Bool.true_and, decide_eq_true_eq]
        omega
      rw [processLine_of_confirms st line hconf]
      simp only [hkc, hres]
      refine ⟨d ++ [line.headD 0], rfl, by simp; omega, ?_, ?_, ?_⟩
      · intro x hx
        rcases List.mem_append.mp hx with h | h
        · exact hd x h
        · rw [List.mem_singleton.mp h]; exact hc
      · intro k
        simp only [List.length_append, List.length_singleton]
        constructor
        · rintro ⟨e, he, hk⟩
          rcases List.mem_append.mp he with h | h
          · have := (hset k).mp ⟨e, h, hk⟩
            push_cast
            omega
          · rw [List.mem_singleton.mp h] at hk
            simp only [headingRecord] at hk
            push_cast
            omega
        · intro hk
          push_cast at hk
          by_cases hlast : k = (d.length : Int)
          · exact ⟨_, List.mem_append_right _ (List.mem_singleton.mpr rfl), by
              simp only [headingRecord]; omega⟩
          · obtain ⟨e, he, hke⟩ := (hset k).mpr ⟨hk.1, by omega⟩
            exact ⟨e, List.mem_append_left _ he, hke⟩
      · apply levelsInOrder_append _ _ hord
        intro j hj0 hjk
        simp only [headingRecord] at hjk
        exact (hset j).mpr ⟨hj0, by omega⟩
    · have hconf : confirms st line = false := by
        simp only [confirms, hl, hkc, hres, Bool.true_and]
        decide
      rw [processLine_of_not_confirms st line hconf, if_pos hl]
      simp only [hkc, hres]
      exact ⟨d, rfl, hlen, hd, hset, hord⟩
  · have hl2 : looksLikeUnderline st.name line = false := by simpa using hl
    rw [processLine_of_not_looksLike st line hl2]
    exact ⟨d, hkc, hlen, hd, hset, hord⟩

theorem LevelsInv_foldl (doc : List (List Nat)) :
    ∀ st : RestState, LevelsInv st.kindchars st.corkQueue →
      LevelsInv (doc.foldl processLine st).kindchars (doc.foldl processLine st).corkQueue := by
  induction doc with
  | nil => intro st inv; exact inv
  | cons line doc ih =>
    intro st inv
    exact ih (processLine st line) (LevelsInv_processLine st line inv)

/-- Every state reached by `findRestTags` satisfies the level invariant. -/
theorem LevelsInv_findRestTags (stale : RestState) (doc : List (List Nat)) :
    LevelsInv (findRestTags stale doc).kindchars (findRestTags stale doc).corkQueue := by
  apply LevelsInv_foldl
  refine ⟨[], rfl, by simp, by simp, ?_, ?_⟩
  · intro k
    simp [startScan]
  · intro i e he
    simp [startScan] at he

/-- **C19** Levels appear in order. In every state that `findRestTags` reaches, the
levels of the records emitted so far are exactly the numbers `0, ..., m - 1`, where
`m <= 4` is the number of assigned entries of the level table; hence the first
record of a scan has level 0 and no parent (the record carries none, and the level
that `getNestingLevel` returns for it is `NULL`), and a record of level `k > 0` comes
after a record of every level below `k`. -/
theorem levels_appear_in_order (stale : RestState) (doc : List (List Nat)) :
    (∀ k : Int, (∃ e ∈ (findRestTags stale doc).corkQueue, e.kind = k) ↔
        (0 ≤ k ∧ k < (assignedCount (findRestTags stale doc).kindchars : Int)))
      ∧ assignedCount (findRestTags stale doc).kindchars ≤ SECTION_COUNT
      ∧ (∀ e, (findRestTags stale doc).corkQueue.head? = some e →
          e.kind = 0 ∧ e.scopeIndex = CORK_NIL)
      ∧ (∀ (line : List Nat) (kind : Int), confirms (findRestTags stale doc) line = true →
          (findRestTags stale doc).corkQueue = [] →
          (getNestingLevel (findRestTags stale doc).corkQueue kind
            (findRestTags stale doc).nestingLevels).1 = none)
      ∧ levelsInOrder (findRestTags stale doc).corkQueue := by
  obtain ⟨d, hkc, hlen, hd, hset, hord⟩ := LevelsInv_findRestTags stale doc
  have hcount : assignedCount (findRestTags stale doc).kindchars = d.length := by
    rw [hkc]; exact assignedCount_assigned d _ hd
  refine ⟨?_, ?_, ?_, ?_, hord⟩
  · intro k; rw [hcount]; exact hset k
  · rw [hcount]; exact hlen
  · intro e he
    have hmem : e ∈ (findRestTags stale doc).corkQueue := List.mem_of_mem_head? he
    refine ⟨?_, findRestTags_scopeIndex stale doc e hmem⟩
    have hk0 := ((hset e.kind).mp ⟨e, hmem, rfl⟩).1
    by_contra hne
    have hget : (findRestTags stale doc).corkQueue.get? 0 = some e := by
      cases hq : (findRestTags stale doc).corkQueue with
      | nil => rw [hq] at he; simp at he
      | cons a r => rw [hq] at he; simpa using he
    obtain ⟨i', _, hlt, _, _⟩ := hord 0 e hget 0 (le_refl _) (by omega)
    omega
  · intro line kind _ hempty
    have hstack : (findRestTags stale doc).nestingLevels = [] := by
      cases hs : (findRestTags stale doc).nestingLevels with
      | nil => rfl
      | cons h t =>
        obtain ⟨e, he⟩ := (StackInv_findRestTags stale doc).valid h (by rw [hs]; simp)
        have := (getEntryInCorkQueue_le _ h e he)
        rw [hempty] at this
        simp at this
        omega
    rw [hstack, getNestingLevel]

/-- Witness of C19: after A under `===` and B under `---`, the first record has level
0, and the state before the first confirming line has an empty stack. -/
theorem levels_appear_in_order_witness :
    (⟨bytes "A", 0, 1, 0⟩ : tagEntryInfo).kind = 0
      ∧ (getNestingLevel (findRestTags ⟨[], [], [], [], 0⟩ [bytes "A"]).corkQueue 0
          (findRestTags ⟨[], [], [], [], 0⟩ [bytes "A"]).nestingLevels).1 = none :=
  ⟨((levels_appear_in_order ⟨[], [], [], [], 0⟩
      [bytes "A", bytes "===", bytes "B", bytes "---"]).2.2.1 ⟨bytes "A", 0, 1, 0⟩
      (by decide)).1,
    (levels_appear_in_order ⟨[], [], [], [], 0⟩ [bytes "A"]).2.2.2.1 (bytes "===") 0
      (by decide) (by decide)⟩

/-! ## The scan and the state an earlier scan left -/

end Rest
